import Mathlib

/-!
# xtr::source — registration lifecycle, copy, rendezvous barrier

Shallow embedding of `src/src/sink.cpp` (the member functions of `xtr::source`):
copy construction, `operator=`, `close`, `is_open`, `sync`, `set_name` and the
destructor, together with the closures these functions post to the consumer.

A source object is identified by its address (`SrcId`).  The program state is a
`World`: every source object, the consumer, the stack-local rendezvous triple of
the `sync` call in flight, and three ghost logs (what was posted, what the
consumer executed, and the primitive actions the consumer performed).

The calling thread is blocked inside `sync` while the consumer runs, so a call of
`sync` is modelled as: post the barrier closure, then let the consumer service
source queues in the order given by a schedule until the barrier has set
`notified`.  The schedule is an argument, every theorem quantifies over it, and a
schedule that ends before the rendezvous happens yields `none` (the call has not
returned).  Between two member function calls the consumer may run in the
background (`consumerRun`, `Step.consumer`); between two statements of one member
function no consumer step is interleaved other than inside the wait of `sync`.
One application thread issues the calls, so a single rendezvous is in flight.

The ring buffer, the consumer and the logger are not part of the source file; the
definitions standing for them are marked as modelled from the specification.
-/

namespace xtr

/-- Identity of a source object (its address, as compared by `this == &other`). -/
abbrev SrcId := Nat

/-- The work items found in a ring buffer: a log record, and the three closures that
`sink.cpp` posts (`operator=`, `set_name`, `sync`). -/
inductive Command where
  | record (r : Nat)
  | add_source (self : SrcId)
  | rename (name : String)
  | barrier (destroy : Bool)
deriving DecidableEq, Repr

/-- Primitive actions performed on the consumer thread, in the order performed. -/
inductive Event where
  | processed (r : Nat)
  | registered (s : SrcId) (name : String)
  | renamed (name : String)
  | set_destroy (b : Bool)
  | flush
  | sync
  | lock
  | set_notified
  | notify (mutexHeld : Bool)
  | unlock
deriving DecidableEq, Repr

/-- The data members of `xtr::source` used by `sink.cpp`: `level_`, `open_`, `buf_`.
The ring buffer is represented by the work items written and not yet released
by the consumer, oldest first. -/
structure Source where
  level : Nat
  open_ : Bool
  buf : List Command
deriving DecidableEq, Repr

/-- Modelled from the spec: `detail::consumer` (xtr/detail/consumer.hpp is missing).
It has the writable `destroy` flag and one registration per `add_source`, each
holding the source it refers to and the mutable name slot of that source. -/
structure Consumer where
  destroy : Bool
  sinks : List (SrcId × String)
deriving DecidableEq, Repr

/-- What one invocation of a posted closure can reach: the consumer `c`, the name
slot passed by reference, the captured rendezvous variables (`m` as "held by the
consumer thread", `notified`), and the action log. -/
structure Frame where
  c : Consumer
  name : String
  locked : Bool
  notified : Bool
  trace : List Event
deriving DecidableEq, Repr

/-- Program state. `locked` and `notified` are the stack locals `m` and `notified`
of the `sync` call in flight; `posted`, `executed` and `trace` are ghost logs. -/
structure World where
  srcs : SrcId → Source
  c : Consumer
  locked : Bool
  notified : Bool
  trace : List Event
  posted : List (SrcId × Command)
  executed : List (SrcId × Command)

/-- Replace the source object at address `s`. -/
def World.setSrc (w : World) (s : SrcId) (x : Source) : World :=
  { w with srcs := fun i => if i = s then x else w.srcs i }

/-! ## Consumer interface (modelled from the spec, section 6) -/

/-- Modelled from the spec: `consumer::flush()` "drain any buffered output to
downstream sinks". Output is outside the model; the call is logged. -/
def Frame.flush (x : Frame) : Frame :=
  { x with trace := x.trace ++ [Event.flush] }

/-- Modelled from the spec: `consumer::sync()` "durably commit downstream sinks". -/
def Frame.sync (x : Frame) : Frame :=
  { x with trace := x.trace ++ [Event.sync] }

/-- Modelled from the spec: `consumer::add_source(source, name)` "register the given
source with the given name". -/
def Frame.add_source (x : Frame) (s : SrcId) (name : String) : Frame :=
  { x with c := { x.c with sinks := x.c.sinks ++ [(s, name)] },
           trace := x.trace ++ [Event.registered s name] }

/-- The assignment `c.destroy = destroy`. -/
def Frame.set_destroy (x : Frame) (b : Bool) : Frame :=
  { x with c := { x.c with destroy := b }, trace := x.trace ++ [Event.set_destroy b] }

/-- Construction of `std::scoped_lock lock{m}`. -/
def Frame.lock (x : Frame) : Frame :=
  { x with locked := true, trace := x.trace ++ [Event.lock] }

/-- The assignment `notified = true`. -/
def Frame.set_notified (x : Frame) : Frame :=
  { x with notified := true, trace := x.trace ++ [Event.set_notified] }

/-- The call `cv.notify_one()`; the log entry records whether `m` is held. -/
def Frame.notify_one (x : Frame) : Frame :=
  { x with trace := x.trace ++ [Event.notify x.locked] }

/-- Destruction of the `scoped_lock` at the end of the closure body. -/
def Frame.unlock (x : Frame) : Frame :=
  { x with locked := false, trace := x.trace ++ [Event.unlock] }

/-- Modelled from the spec: a log record is formatted and written by the consumer;
only the fact that it was processed is kept. -/
def Frame.process (x : Frame) (r : Nat) : Frame :=
  { x with trace := x.trace ++ [Event.processed r] }

/-! ## The closures posted by `sink.cpp` -/

/-- Closure of `operator=` (line 47): `c.add_source(*this, name)`. -/
def add_source_lambda (self : SrcId) (x : Frame) : Frame :=
  x.add_source self x.name

/-- Closure of `set_name` (lines 135-138): `oldname = std::move(name)`. -/
def set_name_lambda (name : String) (x : Frame) : Frame :=
  { x with name := name, trace := x.trace ++ [Event.renamed name] }

/-- Closure of `sync` (lines 92-124). -/
def sync_lambda (destroy : Bool) (x : Frame) : Frame :=
  let x := x.set_destroy destroy
  let x := x.flush
  let x := x.sync
  let x := x.lock
  let x := x.set_notified
  let x := x.notify_one
  x.unlock

/-- Invocation of a work item on the consumer thread. -/
def exec : Command → Frame → Frame
  | Command.record r, x => x.process r
  | Command.add_source self, x => add_source_lambda self x
  | Command.rename name, x => set_name_lambda name x
  | Command.barrier destroy, x => sync_lambda destroy x

/-! ## Consumer loop (modelled from the spec) -/

/-- Modelled from the spec: the consumer-side name slot of source `n` (section 6,
"the consumer-side mutable name slot for this source"): the slot of the first
registration that refers to `n`. -/
def nameOf (n : SrcId) : List (SrcId × String) → Option String
  | [] => none
  | e :: es => if e.1 = n then some e.2 else nameOf n es

/-- Modelled from the spec: write to the name slot of source `n`, the slot of the
first registration that refers to `n`. -/
def setName (n : SrcId) (name : String) : List (SrcId × String) → List (SrcId × String)
  | [] => []
  | e :: es => if e.1 = n then (n, name) :: es else e :: setName n name es

/-- Modelled from the spec: the consumer drops its registration of `n` (the first
one that refers to `n`) after a terminal barrier. -/
def eraseSink (n : SrcId) : List (SrcId × String) → List (SrcId × String)
  | [] => []
  | e :: es => if e.1 = n then es else e :: eraseSink n es

/-- Modelled from the spec: one step of the consumer (xtr/detail/consumer.hpp and its
implementation are missing). The consumer services the registration of source
`n`: when there is one and the buffer of `n` is readable it invokes the oldest
work item with `(consumer, name slot)`. Section 4.1 "Destroy ordering": when the
item set the `destroy` flag the consumer treats it as terminal, drops the
registration and performs no further operation on the source, in particular it
does not advance the read offset (the item stays in the buffer); the flag
concerns this source only and is consumed. Otherwise the item is released from
the buffer (strict FIFO, section 5). -/
def consumerStep (n : SrcId) (w : World) : World :=
  match nameOf n w.c.sinks, (w.srcs n).buf with
  | some nm, cmd :: rest =>
    let x := exec cmd ⟨w.c, nm, w.locked, w.notified, w.trace⟩
    if x.c.destroy then
      { w with
        c := { x.c with destroy := false, sinks := eraseSink n x.c.sinks }
        locked := x.locked
        notified := x.notified
        trace := x.trace
        executed := w.executed ++ [(n, cmd)] }
    else
      { srcs := fun i => if i = n then { w.srcs n with buf := rest } else w.srcs i
        c := { x.c with sinks := setName n x.name x.c.sinks }
        locked := x.locked
        notified := x.notified
        trace := x.trace
        posted := w.posted
        executed := w.executed ++ [(n, cmd)] }
  | _, _ => w

/-- Modelled from the spec: the consumer runs in the background and services the
sources named by a schedule, one work item each. -/
def consumerRun : List SrcId → World → World
  | [], w => w
  | n :: rest, w => consumerRun rest (consumerStep n w)

/-- Lines 126-128: `while (!notified) cv.wait(lock);`. While the caller is blocked
the consumer runs according to the schedule; `none` when the schedule ends
before the rendezvous. -/
def wait : List SrcId → World → Option World
  | [], w => if w.notified then some w else none
  | n :: rest, w => if w.notified then some w else wait rest (consumerStep n w)

/-! ## Ring buffer and logger (modelled from the spec) -/

/-- Modelled from the spec: `source::post` (xtr/source.hpp is missing) "encodes a
command into the ring buffer for consumer-side execution": the item is written
behind everything already in the buffer. Back-pressure of a full buffer is the
buffer's policy and is not modelled. -/
def post (s : SrcId) (cmd : Command) (w : World) : World :=
  { w.setSrc s { w.srcs s with buf := (w.srcs s).buf ++ [cmd] } with
    posted := w.posted ++ [(s, cmd)] }

/-- Modelled from the spec: ring buffer `clear()` "drop all unread content and reset
offsets". -/
def clear (s : SrcId) (w : World) : World :=
  w.setSrc s { w.srcs s with buf := [] }

/-- Modelled from the spec: the default member initialisers of `xtr::source`
(xtr/source.hpp is missing): a source that has not been registered is Closed
(section 4.1, state machine) and its ring buffer is empty. -/
def Source.fresh : Source :=
  { level := 0, open_ := false, buf := [] }

/-- Modelled from the spec: `logger::register_source(source, name)` (xtr/logger.hpp is
missing) "synchronous, installs a new registration on the consumer side before
returning"; construction has post-condition `is_open() == true`. -/
def register_source (s : SrcId) (name : String) (w : World) : World :=
  let w := w.setSrc s { w.srcs s with open_ := true }
  { w with c := { w.c with sinks := w.c.sinks ++ [(s, name)] } }

/-! ## `xtr::source` member functions (src/src/sink.cpp) -/

namespace source

/-- Lines 78-82: `is_open`. -/
def is_open (s : SrcId) (w : World) : Bool :=
  (w.srcs s).open_

/-- Lines 84-129: `sync(bool destroy)`. -/
def sync (sched : List SrcId) (s : SrcId) (destroy : Bool) (w : World) : Option World :=
  let w := { w with locked := false, notified := false }
  let w := post s (Command.barrier destroy) w
  wait sched w

/-- Lines 60-76: `close`. -/
def close (sched : List SrcId) (s : SrcId) (w : World) : Option World :=
  if (w.srcs s).open_ then
    match sync sched s true w with
    | none => none
    | some w =>
      let w := w.setSrc s { w.srcs s with open_ := false }
      some (clear s w)
  else
    some w

/-- Lines 34-52: `operator=`. -/
def operator_assign (sched : List SrcId) (self other : SrcId) (w : World) : Option World :=
  if self = other then
    some w
  else
    match close sched self w with
    | none => none
    | some w =>
      let w := w.setSrc self { w.srcs self with level := (w.srcs other).level }
      if (w.srcs other).open_ then
        let w := post other (Command.add_source self) w
        some (w.setSrc self { w.srcs self with open_ := true })
      else
        some w

/-- Lines 28-32: the copy constructor; the new object starts from its default
member initialisers. -/
def copy_construct (sched : List SrcId) (self other : SrcId) (w : World) : Option World :=
  operator_assign sched self other (w.setSrc self Source.fresh)

/-- Lines 54-58: `source(logger&, std::string)`. -/
def construct (s : SrcId) (name : String) (w : World) : World :=
  register_source s name (w.setSrc s Source.fresh)

/-- Lines 131-140: `set_name`. -/
def set_name (sched : List SrcId) (s : SrcId) (name : String) (w : World) : Option World :=
  sync sched s false (post s (Command.rename name) w)

/-- Lines 142-146: the destructor. -/
def destruct (sched : List SrcId) (s : SrcId) (w : World) : Option World :=
  close sched s w

end source

/-- A program start: no source is open, nothing is registered. -/
def World.init : World :=
  { srcs := fun _ => Source.fresh
    c := { destroy := false, sinks := [] }
    locked := false
    notified := false
    trace := []
    posted := []
    executed := [] }

/-! ## Observations -/

/-- Number of consumer-side registrations that refer to `s`. -/
def regCount (w : World) (s : SrcId) : Nat :=
  (w.c.sinks.map Prod.fst).count s

/-- A consumer-side registration referring to `s` exists. -/
def registered (w : World) (s : SrcId) : Prop :=
  s ∈ w.c.sinks.map Prod.fst

instance (w : World) (s : SrcId) : Decidable (registered w s) :=
  inferInstanceAs (Decidable (s ∈ w.c.sinks.map Prod.fst))

/-- The work items the consumer has executed from the queue of `s`, oldest first. -/
def executedBy (s : SrcId) (w : World) : List Command :=
  (w.executed.filter (fun e => e.1 = s)).map Prod.snd

/-- The work items posted to the buffer of `s`, oldest first. -/
def postedOn (s : SrcId) (w : World) : List Command :=
  (w.posted.filter (fun e => e.1 = s)).map Prod.snd

/-- What an action accesses: the consumer, the name slot, or one of the captured
rendezvous variables. -/
inductive Target where
  | consumer
  | name_slot
  | mutex
  | notified
  | condvar
deriving DecidableEq, Repr

/-- The object an action accesses. -/
def Event.target : Event → Target
  | Event.processed _ => Target.consumer
  | Event.registered _ _ => Target.consumer
  | Event.renamed _ => Target.name_slot
  | Event.set_destroy _ => Target.consumer
  | Event.flush => Target.consumer
  | Event.sync => Target.consumer
  | Event.lock => Target.mutex
  | Event.set_notified => Target.notified
  | Event.notify _ => Target.condvar
  | Event.unlock => Target.mutex

/-! ## Vocabulary of the specification: effects, invariants, reachable states -/

/-- The registrations after a work item that was released from the buffer. -/
def sinksAfter (n : SrcId) (nm : String) (sinks : List (SrcId × String)) :
    Command → List (SrcId × String)
  | Command.add_source t => sinks ++ [(t, nm)]
  | Command.rename nm' => setName n nm' sinks
  | _ => sinks

/-- Case description of `consumerStep n` from a state whose `destroy` flag is clear:
nothing happened, or the oldest item of `n` was executed and released, or it was
a terminal barrier. -/
inductive Effect (n : SrcId) (w w' : World) : Prop where
  | idle (h : w' = w) (hwhy : nameOf n w.c.sinks = none ∨ (w.srcs n).buf = [])
  | release (nm : String) (cmd : Command) (rest : List Command)
      (hn : nameOf n w.c.sinks = some nm)
      (hb : (w.srcs n).buf = cmd :: rest)
      (hc : cmd ≠ Command.barrier true)
      (hsrcs : w'.srcs = fun i => if i = n then { w.srcs n with buf := rest } else w.srcs i)
      (hdestroy : w'.c.destroy = false)
      (hsinks : w'.c.sinks = sinksAfter n nm w.c.sinks cmd)
      (hnot : w'.notified = (w.notified || decide (cmd = Command.barrier false)))
      (hexec : w'.executed = w.executed ++ [(n, cmd)])
  | terminal (nm : String) (rest : List Command)
      (hn : nameOf n w.c.sinks = some nm)
      (hb : (w.srcs n).buf = Command.barrier true :: rest)
      (hsrcs : w'.srcs = w.srcs)
      (hdestroy : w'.c.destroy = false)
      (hsinks : w'.c.sinks = eraseSink n w.c.sinks)
      (hnot : w'.notified = true)
      (hexec : w'.executed = w.executed ++ [(n, Command.barrier true)])

/-- The invariant kept by every consumer step and every member function:
registrations are unique and refer to open sources, closed sources have empty
buffers, a pending re-registration command is the only one for its source and
that source is open and not yet registered, and an open source is registered,
or awaits its re-registration, or has a terminal barrier in its buffer. -/
structure SInv (w : World) : Prop where
  nodup : (w.c.sinks.map Prod.fst).Nodup
  destroy_clear : w.c.destroy = false
  reg_open : ∀ s, s ∈ w.c.sinks.map Prod.fst → (w.srcs s).open_ = true
  closed_empty : ∀ s, (w.srcs s).open_ = false → (w.srcs s).buf = []
  add_fresh : ∀ o t, Command.add_source t ∈ (w.srcs o).buf →
    (w.srcs t).open_ = true ∧ t ∉ w.c.sinks.map Prod.fst
  add_unique : ∀ o o' t, Command.add_source t ∈ (w.srcs o).buf →
    Command.add_source t ∈ (w.srcs o').buf → o = o'
  add_once : ∀ o t, (w.srcs o).buf.count (Command.add_source t) ≤ 1
  open_reg : ∀ s, (w.srcs s).open_ = true →
    s ∈ w.c.sinks.map Prod.fst ∨ (∃ o, Command.add_source s ∈ (w.srcs o).buf) ∨
      Command.barrier true ∈ (w.srcs s).buf

/-- The work item is a `sync` closure. -/
def isBarrier : Command → Bool
  | Command.barrier _ => true
  | _ => false

/-- The work item is a log record or a re-registration: what a buffer can hold
between two member function calls. -/
def plain : Command → Bool
  | Command.record _ => true
  | Command.add_source _ => true
  | _ => false

/-- State of the wait of `sync(d)` called on `s`. `L` is what the consumer will
have executed from the queue of `s` once the barrier has run. -/
structure Waiting (s : SrcId) (d : Bool) (L : List Command) (w : World) : Prop where
  inv : SInv w
  others : ∀ o, o ≠ s → ∀ c ∈ (w.srcs o).buf, plain c = true
  pending : w.notified = false → ∃ pre, (w.srcs s).buf = pre ++ [Command.barrier d] ∧
    (∀ c ∈ pre, isBarrier c = false) ∧ executedBy s w ++ pre ++ [Command.barrier d] = L
  done : w.notified = true → executedBy s w = L ∧
    (w.srcs s).buf = (if d then [Command.barrier true] else []) ∧
    (d = true → s ∉ w.c.sinks.map Prod.fst ∧ ∀ o, Command.add_source s ∉ (w.srcs o).buf)

/-- The invariant at observation points (between two member function calls): the
structural invariant, and buffers hold only records and re-registration commands. -/
structure Inv (w : World) : Prop where
  sinv : SInv w
  quiet : ∀ o c, c ∈ (w.srcs o).buf → plain c = true

/-- State of the rename during the wait of `set_name`: the rename is still queued
in front of the barrier, or it has been applied to the name slot. -/
def RenameState (s : SrcId) (nm : String) (w : World) : Prop :=
  (∃ pre, (w.srcs s).buf = pre ++ [Command.rename nm, Command.barrier false] ∧
    ∀ c ∈ pre, plain c = true) ∨
  ((∀ c ∈ (w.srcs s).buf, c = Command.barrier false) ∧ nameOf s w.c.sinks = some nm)

/-- One observable transition: a member function call that returned, a posted log
record, or a step of the consumer running in the background. `sync` is the
public non-destroying form; the terminal form is reached through `close`. -/
inductive Step : World → World → Prop where
  | construct (w : World) (s : SrcId) (name : String)
      (hc : (w.srcs s).open_ = false) : Step w (source.construct s name w)
  | copy_construct (w w' : World) (sched : List SrcId) (self other : SrcId)
      (hc : (w.srcs self).open_ = false)
      (h : source.copy_construct sched self other w = some w') : Step w w'
  | assign (w w' : World) (sched : List SrcId) (self other : SrcId)
      (h : source.operator_assign sched self other w = some w') : Step w w'
  | post (w : World) (s : SrcId) (r : Nat)
      (ho : (w.srcs s).open_ = true) : Step w (post s (Command.record r) w)
  | sync (w w' : World) (sched : List SrcId) (s : SrcId)
      (ho : (w.srcs s).open_ = true)
      (h : source.sync sched s false w = some w') : Step w w'
  | set_name (w w' : World) (sched : List SrcId) (s : SrcId) (name : String)
      (ho : (w.srcs s).open_ = true)
      (h : source.set_name sched s name w = some w') : Step w w'
  | close (w w' : World) (sched : List SrcId) (s : SrcId)
      (h : source.close sched s w = some w') : Step w w'
  | consumer (w : World) (n : SrcId) : Step w (consumerStep n w)

/-- States reachable from program start. -/
inductive Reachable : World → Prop where
  | init : Reachable World.init
  | step {w w' : World} (hr : Reachable w) (hs : Step w w') : Reachable w'

/-- Pending re-registrations respect the rank `ρ`: a re-registration of `t` queued
on `o` has `ρ o < ρ t`, so the chain "is registered by" has no cycle. -/
def RankedBy (ρ : SrcId → Nat) (w : World) : Prop :=
  ∀ o t, Command.add_source t ∈ (w.srcs o).buf → ρ o < ρ t

/-- Pending re-registrations do not form a cycle. -/
def Ranked (w : World) : Prop :=
  ∃ ρ : SrcId → Nat, RankedBy ρ w

/-- Every open source is registered or awaits its re-registration. -/
def Served (w : World) : Prop :=
  ∀ x, (w.srcs x).open_ = true →
    x ∈ w.c.sinks.map Prod.fst ∨ ∃ o, Command.add_source x ∈ (w.srcs o).buf

/-- State of the wait of `sync(d)` on `s` before the rendezvous, with what is needed
to show that the consumer can reach the barrier. -/
structure Live (ρ : SrcId → Nat) (s : SrcId) (d : Bool) (L : List Command) (w : World) :
    Prop where
  waiting : Waiting s d L w
  notyet : w.notified = false
  ranked : RankedBy ρ w
  served : Served w

/-- From `w` to `w'` no pending re-registration was lost: each is still queued or
its source is registered. -/
def Keeps (w w' : World) : Prop :=
  ∀ o x, (Command.add_source x ∈ (w.srcs o).buf ∨ x ∈ w.c.sinks.map Prod.fst) →
    (Command.add_source x ∈ (w'.srcs o).buf ∨ x ∈ w'.c.sinks.map Prod.fst)

/-- The calls `post(r1); ...; post(rN)` on source `s`. Each record comes with the
schedule of the consumer steps that run in the background after that call and
before the next one. -/
def postAll (s : SrcId) : List (Nat × List SrcId) → World → World
  | [], w => w
  | (r, bg) :: rest, w => postAll s rest (consumerRun bg (post s (Command.record r) w))

/-- One source at address 0, constructed with name "a". -/
def oneSource : World :=
  source.construct 0 "a" World.init

/-- The state `oneSource` after `post(7)` on source 0. -/
def oneSourceBusy : World :=
  post 0 (Command.record 7) oneSource

/-- Two sources: 0 constructed with name "a" holding one posted record, 1 constructed
with name "b". -/
def twoSources : World :=
  source.construct 1 "b" oneSourceBusy

/-- The state `twoSources` with the level of source 0 set to 5. -/
def twoLevels : World :=
  twoSources.setSrc 0 { twoSources.srcs 0 with level := 5 }

/-- The state after constructing source 0 with name "a" and copy-constructing
source 1 from it, before the consumer has run. -/
def copiedSource : World :=
  (source.copy_construct [] 1 0 oneSource).getD World.init

/-! ## Frame lemmas for the consumer -/

theorem consumerStep_open (n s : SrcId) (w : World) :
    ((consumerStep n w).srcs s).open_ = (w.srcs s).open_ := by
  unfold consumerStep
  split
  · dsimp only
    split
    · rfl
    · dsimp only
      split
      · next h => subst h; rfl
      · rfl
  · rfl

theorem consumerStep_level (n s : SrcId) (w : World) :
    ((consumerStep n w).srcs s).level = (w.srcs s).level := by
  unfold consumerStep
  split
  · dsimp only
    split
    · rfl
    · dsimp only
      split
      · next h => subst h; rfl
      · rfl
  · rfl

theorem consumerStep_posted (n : SrcId) (w : World) :
    (consumerStep n w).posted = w.posted := by
  unfold consumerStep
  split
  · dsimp only
    split <;> rfl
  · rfl

theorem consumerStep_buf_suffix (n s : SrcId) (w : World) :
    ((consumerStep n w).srcs s).buf <:+ (w.srcs s).buf := by
  unfold consumerStep
  split
  · next nm cmd rest hn hb =>
    dsimp only
    split
    · exact List.suffix_refl _
    · dsimp only
      split
      · next h => subst h; rw [hb]; exact List.suffix_cons _ _
      · exact List.suffix_refl _
  · exact List.suffix_refl _

/-- Induction principle for the wait loop: a property kept by every consumer step
taken while the flag is still clear holds when the wait returns. -/
theorem wait_induct (P : World → Prop)
    (hstep : ∀ n w, P w → w.notified = false → P (consumerStep n w)) :
    ∀ (sched : List SrcId) (w w' : World), P w → wait sched w = some w' →
      P w' ∧ w'.notified = true := by
  intro sched
  induction sched with
  | nil =>
    intro w w' hP h
    unfold wait at h
    split at h
    · next hn => cases h; exact ⟨hP, hn⟩
    · cases h
  | cons n rest ih =>
    intro w w' hP h
    unfold wait at h
    split at h
    · next hn => cases h; exact ⟨hP, hn⟩
    · next hn =>
      exact ih _ _ (hstep n w hP (by simpa using hn)) h

theorem wait_open (sched : List SrcId) (s : SrcId) (w w' : World)
    (h : wait sched w = some w') : (w'.srcs s).open_ = (w.srcs s).open_ :=
  (wait_induct (fun v => (v.srcs s).open_ = (w.srcs s).open_)
    (fun n v hv _ => (consumerStep_open n s v).trans hv) sched w w' rfl h).1

theorem wait_level (sched : List SrcId) (s : SrcId) (w w' : World)
    (h : wait sched w = some w') : (w'.srcs s).level = (w.srcs s).level :=
  (wait_induct (fun v => (v.srcs s).level = (w.srcs s).level)
    (fun n v hv _ => (consumerStep_level n s v).trans hv) sched w w' rfl h).1

theorem wait_posted (sched : List SrcId) (w w' : World)
    (h : wait sched w = some w') : w'.posted = w.posted :=
  (wait_induct (fun v => v.posted = w.posted)
    (fun n v hv _ => (consumerStep_posted n v).trans hv) sched w w' rfl h).1

theorem wait_buf_suffix (sched : List SrcId) (s : SrcId) (w w' : World)
    (h : wait sched w = some w') : (w'.srcs s).buf <:+ (w.srcs s).buf :=
  (wait_induct (fun v => (v.srcs s).buf <:+ (w.srcs s).buf)
    (fun n v hv _ => (consumerStep_buf_suffix n s v).trans hv) sched w w'
    (List.suffix_refl _) h).1

/-! ## Registration list lemmas -/

theorem nameOf_cons (n : SrcId) (e : SrcId × String) (es : List (SrcId × String)) :
    nameOf n (e :: es) = if e.1 = n then some e.2 else nameOf n es := rfl

theorem setName_cons (n : SrcId) (nm : String) (e : SrcId × String)
    (es : List (SrcId × String)) :
    setName n nm (e :: es) = if e.1 = n then (n, nm) :: es else e :: setName n nm es := rfl

theorem eraseSink_cons (n : SrcId) (e : SrcId × String) (es : List (SrcId × String)) :
    eraseSink n (e :: es) = if e.1 = n then es else e :: eraseSink n es := rfl

theorem nameOf_isSome_iff (n : SrcId) (l : List (SrcId × String)) :
    (∃ nm, nameOf n l = some nm) ↔ n ∈ l.map Prod.fst := by
  induction l with
  | nil => simp [nameOf]
  | cons e es ih =>
    rw [nameOf_cons]
    by_cases h : e.1 = n
    · simp [h]
    · simp only [h, if_false, List.map_cons, List.mem_cons]
      rw [ih]
      constructor
      · intro hm; exact Or.inr hm
      · intro hm
        rcases hm with hm | hm
        · exact absurd hm.symm h
        · exact hm

theorem nameOf_mem {n : SrcId} {l : List (SrcId × String)} {nm : String}
    (h : nameOf n l = some nm) : n ∈ l.map Prod.fst :=
  (nameOf_isSome_iff n l).1 ⟨nm, h⟩

theorem nameOf_append_of_some {n : SrcId} {l : List (SrcId × String)} {nm : String}
    (h : nameOf n l = some nm) (l2 : List (SrcId × String)) :
    nameOf n (l ++ l2) = some nm := by
  induction l with
  | nil => simp [nameOf] at h
  | cons e es ih =>
    rw [nameOf_cons] at h
    rw [List.cons_append, nameOf_cons]
    by_cases he : e.1 = n
    · simpa [he] using h
    · simp only [he, if_false] at h ⊢
      exact ih h

theorem nameOf_append_of_not_mem {n : SrcId} {l : List (SrcId × String)}
    (h : n ∉ l.map Prod.fst) (l2 : List (SrcId × String)) :
    nameOf n (l ++ l2) = nameOf n l2 := by
  induction l with
  | nil => rfl
  | cons e es ih =>
    simp only [List.map_cons, List.mem_cons, not_or] at h
    rw [List.cons_append, nameOf_cons]
    have he : ¬ e.1 = n := fun hh => h.1 hh.symm
    simp only [he, if_false]
    exact ih h.2

theorem setName_keys (n : SrcId) (nm : String) (l : List (SrcId × String)) :
    (setName n nm l).map Prod.fst = l.map Prod.fst := by
  induction l with
  | nil => rfl
  | cons e es ih =>
    rw [setName_cons]
    by_cases he : e.1 = n
    · simp [he]
    · simp [he, ih]

theorem setName_self {n : SrcId} {nm : String} {l : List (SrcId × String)}
    (h : nameOf n l = some nm) : setName n nm l = l := by
  induction l with
  | nil => rfl
  | cons e es ih =>
    rw [nameOf_cons] at h
    rw [setName_cons]
    by_cases he : e.1 = n
    · simp only [he, if_true, Option.some.injEq] at h ⊢
      cases e
      simp_all
    · simp only [he, if_false] at h ⊢
      rw [ih h]

theorem nameOf_setName_same {n : SrcId} (nm : String) {l : List (SrcId × String)}
    (h : n ∈ l.map Prod.fst) : nameOf n (setName n nm l) = some nm := by
  induction l with
  | nil => simp at h
  | cons e es ih =>
    rw [setName_cons]
    by_cases he : e.1 = n
    · simp [he, nameOf_cons]
    · simp only [he, if_false]
      rw [nameOf_cons]
      simp only [he, if_false]
      apply ih
      simp only [List.map_cons, List.mem_cons] at h
      rcases h with h | h
      · exact absurd h.symm he
      · exact h

theorem nameOf_setName_other {n m : SrcId} (nm : String) (l : List (SrcId × String))
    (h : m ≠ n) : nameOf m (setName n nm l) = nameOf m l := by
  induction l with
  | nil => rfl
  | cons e es ih =>
    rw [setName_cons]
    by_cases he : e.1 = n
    · have hm : ¬ e.1 = m := fun hh => h (hh.symm.trans he)
      have hm2 : ¬ n = m := fun hh => h hh.symm
      simp [he, nameOf_cons, hm2]
    · simp only [he, if_false]
      rw [nameOf_cons, nameOf_cons, ih]

theorem eraseSink_keys (n : SrcId) (l : List (SrcId × String)) :
    (eraseSink n l).map Prod.fst = (l.map Prod.fst).erase n := by
  induction l with
  | nil => rfl
  | cons e es ih =>
    rw [eraseSink_cons]
    by_cases he : e.1 = n
    · simp [he]
    · have : ¬ (e.1 == n) = true := by simpa using he
      simp [he, ih, List.erase_cons, this]

theorem nameOf_eraseSink_other {n m : SrcId} (l : List (SrcId × String))
    (h : m ≠ n) : nameOf m (eraseSink n l) = nameOf m l := by
  induction l with
  | nil => rfl
  | cons e es ih =>
    rw [eraseSink_cons]
    by_cases he : e.1 = n
    · have hm : ¬ n = m := fun hh => h hh.symm
      simp [he, nameOf_cons, hm]
    · simp only [he, if_false]
      rw [nameOf_cons, nameOf_cons, ih]

/-! ## The effect of one consumer step -/

theorem consumerStep_effect (n : SrcId) (w : World) (hd : w.c.destroy = false) :
    Effect n w (consumerStep n w) := by
  unfold consumerStep
  split
  · next nm cmd rest hn hb =>
    cases cmd with
    | record r =>
      refine Effect.release nm (Command.record r) rest hn hb (by simp) ?_ ?_ ?_ ?_ ?_ <;>
        simp [exec, Frame.process, hd, sinksAfter, setName_self hn]
    | add_source t =>
      refine Effect.release nm (Command.add_source t) rest hn hb (by simp) ?_ ?_ ?_ ?_ ?_ <;>
        simp [exec, add_source_lambda, Frame.add_source, hd, sinksAfter,
          setName_self (nameOf_append_of_some hn _)]
    | rename nm' =>
      refine Effect.release nm (Command.rename nm') rest hn hb (by simp) ?_ ?_ ?_ ?_ ?_ <;>
        simp [exec, set_name_lambda, hd, sinksAfter]
    | barrier d =>
      cases d with
      | false =>
        refine Effect.release nm (Command.barrier false) rest hn hb (by simp) ?_ ?_ ?_ ?_ ?_ <;>
          simp [exec, sync_lambda, Frame.set_destroy, Frame.flush, Frame.sync, Frame.lock,
            Frame.set_notified, Frame.notify_one, Frame.unlock, sinksAfter, setName_self hn]
      | true =>
        refine Effect.terminal nm rest hn hb ?_ ?_ ?_ ?_ ?_ <;>
          simp [exec, sync_lambda, Frame.set_destroy, Frame.flush, Frame.sync, Frame.lock,
            Frame.set_notified, Frame.notify_one, Frame.unlock]
  · next hno =>
    refine Effect.idle rfl ?_
    cases hn : nameOf n w.c.sinks with
    | none => exact Or.inl rfl
    | some nm =>
      cases hb : (w.srcs n).buf with
      | nil => exact Or.inr rfl
      | cons cmd rest => exact absurd hb (hno nm cmd rest hn)

/-! ## Structural invariant -/

theorem sinksAfter_keys_add (n t : SrcId) (nm : String) (sinks : List (SrcId × String)) :
    (sinksAfter n nm sinks (Command.add_source t)).map Prod.fst
      = sinks.map Prod.fst ++ [t] := by
  simp [sinksAfter]

theorem sinksAfter_keys_other (n : SrcId) (nm : String) (sinks : List (SrcId × String))
    (cmd : Command) (h : ∀ t, cmd ≠ Command.add_source t) :
    (sinksAfter n nm sinks cmd).map Prod.fst = sinks.map Prod.fst := by
  cases cmd with
  | record r => rfl
  | add_source t => exact absurd rfl (h t)
  | rename nm' => simp [sinksAfter, setName_keys]
  | barrier d => rfl

theorem SInv_effect {n : SrcId} {w w' : World} (heff : Effect n w w') (hinv : SInv w) :
    SInv w' := by
  cases heff with
  | idle h _ => subst h; exact hinv
  | release nm cmd rest hn hb hc hsrcs hdestroy hsinks hnot hexec =>
    have hopen : ∀ i, (w'.srcs i).open_ = (w.srcs i).open_ := by
      intro i; rw [hsrcs]; dsimp only
      split
      · next h => subst h; rfl
      · rfl
    have hbuf_n : (w'.srcs n).buf = rest := by rw [hsrcs]; simp
    have hbuf_o : ∀ i, i ≠ n → (w'.srcs i).buf = (w.srcs i).buf := by
      intro i hi; rw [hsrcs]; simp [hi]
    have hsub : ∀ i c, c ∈ (w'.srcs i).buf → c ∈ (w.srcs i).buf := by
      intro i c hc'
      by_cases hi : i = n
      · subst hi; rw [hbuf_n] at hc'; rw [hb]; exact List.mem_cons_of_mem _ hc'
      · rw [hbuf_o i hi] at hc'; exact hc'
    have hcount : ∀ i a, (w'.srcs i).buf.count a ≤ (w.srcs i).buf.count a := by
      intro i a
      by_cases hi : i = n
      · subst hi; rw [hbuf_n, hb]; exact List.count_le_count_cons _ _ _
      · rw [hbuf_o i hi]
    by_cases hadd : ∃ t, cmd = Command.add_source t
    · obtain ⟨t, rfl⟩ := hadd
      have hkeys : w'.c.sinks.map Prod.fst = w.c.sinks.map Prod.fst ++ [t] := by
        rw [hsinks]; exact sinksAfter_keys_add n t nm _
      have htin : Command.add_source t ∈ (w.srcs n).buf := by rw [hb]; exact List.mem_cons_self _ _
      have htf := hinv.add_fresh n t htin
      have hgone : ∀ o, Command.add_source t ∉ (w'.srcs o).buf := by
        intro o ho
        by_cases hi : o = n
        · subst hi
          rw [hbuf_n] at ho
          have h1 := hinv.add_once o t
          rw [hb, List.count_cons_self] at h1
          have h2 : 1 ≤ rest.count (Command.add_source t) := List.one_le_count_iff.2 ho
          omega
        · rw [hbuf_o o hi] at ho
          exact hi (hinv.add_unique o n t ho htin)
      refine ⟨?_, hdestroy, ?_, ?_, ?_, ?_, ?_, ?_⟩
      · rw [hkeys]
        refine List.Nodup.append hinv.nodup (List.nodup_singleton t) ?_
        intro a ha hb'
        simp only [List.mem_singleton] at hb'
        subst hb'
        exact htf.2 ha
      · intro s hs
        rw [hkeys, List.mem_append, List.mem_singleton] at hs
        rw [hopen]
        rcases hs with hs | hs
        · exact hinv.reg_open s hs
        · subst hs; exact htf.1
      · intro s hs
        rw [hopen] at hs
        have := hinv.closed_empty s hs
        by_cases hi : s = n
        · subst hi; rw [hb] at this; cases this
        · rw [hbuf_o s hi]; exact this
      · intro o t' ht'
        have h1 := hinv.add_fresh o t' (hsub o _ ht')
        refine ⟨by rw [hopen]; exact h1.1, ?_⟩
        rw [hkeys, List.mem_append, List.mem_singleton]
        rintro (h | h)
        · exact h1.2 h
        · subst h; exact hgone o ht'
      · intro o o' t' h1 h2
        exact hinv.add_unique o o' t' (hsub o _ h1) (hsub o' _ h2)
      · intro o t'
        exact (hcount o _).trans (hinv.add_once o t')
      · intro s hs
        rw [hopen] at hs
        rw [hkeys]
        rcases hinv.open_reg s hs with h | ⟨o, h⟩ | h
        · exact Or.inl (List.mem_append_left _ h)
        · by_cases hst : s = t
          · subst hst; exact Or.inl (List.mem_append_right _ (List.mem_singleton_self s))
          · refine Or.inr (Or.inl ⟨o, ?_⟩)
            by_cases hi : o = n
            · subst hi
              rw [hb] at h
              rw [hbuf_n]
              rcases List.mem_cons.1 h with h | h
              · injection h with h; exact absurd h hst
              · exact h
            · rw [hbuf_o o hi]; exact h
        · refine Or.inr (Or.inr ?_)
          by_cases hi : s = n
          · subst hi
            rw [hb] at h
            rw [hbuf_n]
            rcases List.mem_cons.1 h with h | h
            · cases h
            · exact h
          · rw [hbuf_o s hi]; exact h
    · have hadd' : ∀ t, cmd ≠ Command.add_source t := fun t ht => hadd ⟨t, ht⟩
      have hkeys : w'.c.sinks.map Prod.fst = w.c.sinks.map Prod.fst := by
        rw [hsinks]; exact sinksAfter_keys_other n nm _ cmd hadd'
      refine ⟨by rw [hkeys]; exact hinv.nodup, hdestroy, ?_, ?_, ?_, ?_, ?_, ?_⟩
      · intro s hs
        rw [hkeys] at hs
        rw [hopen]; exact hinv.reg_open s hs
      · intro s hs
        rw [hopen] at hs
        have := hinv.closed_empty s hs
        by_cases hi : s = n
        · subst hi; rw [hb] at this; cases this
        · rw [hbuf_o s hi]; exact this
      · intro o t' ht'
        have h1 := hinv.add_fresh o t' (hsub o _ ht')
        exact ⟨by rw [hopen]; exact h1.1, by rw [hkeys]; exact h1.2⟩
      · intro o o' t' h1 h2
        exact hinv.add_unique o o' t' (hsub o _ h1) (hsub o' _ h2)
      · intro o t'
        exact (hcount o _).trans (hinv.add_once o t')
      · intro s hs
        rw [hopen] at hs
        rw [hkeys]
        rcases hinv.open_reg s hs with h | ⟨o, h⟩ | h
        · exact Or.inl h
        · refine Or.inr (Or.inl ⟨o, ?_⟩)
          by_cases hi : o = n
          · subst hi
            rw [hb] at h
            rw [hbuf_n]
            rcases List.mem_cons.1 h with h | h
            · exact absurd h.symm (hadd' s)
            · exact h
          · rw [hbuf_o o hi]; exact h
        · refine Or.inr (Or.inr ?_)
          by_cases hi : s = n
          · subst hi
            rw [hb] at h
            rw [hbuf_n]
            rcases List.mem_cons.1 h with h | h
            · exact absurd h.symm hc
            · exact h
          · rw [hbuf_o s hi]; exact h
  | terminal nm rest hn hb hsrcs hdestroy hsinks hnot hexec =>
    have hkeys : w'.c.sinks.map Prod.fst = (w.c.sinks.map Prod.fst).erase n := by
      rw [hsinks]; exact eraseSink_keys n _
    refine ⟨by rw [hkeys]; exact hinv.nodup.erase n, hdestroy, ?_, ?_, ?_, ?_, ?_, ?_⟩
    · intro s hs
      rw [hkeys] at hs
      rw [hsrcs]; exact hinv.reg_open s (List.mem_of_mem_erase hs)
    · intro s hs
      rw [hsrcs] at hs ⊢; exact hinv.closed_empty s hs
    · intro o t' ht'
      rw [hsrcs] at ht' ⊢
      have h1 := hinv.add_fresh o t' ht'
      exact ⟨h1.1, by rw [hkeys]; exact fun h => h1.2 (List.mem_of_mem_erase h)⟩
    · intro o o' t' h1 h2
      rw [hsrcs] at h1 h2
      exact hinv.add_unique o o' t' h1 h2
    · intro o t'
      rw [hsrcs]; exact hinv.add_once o t'
    · intro s hs
      rw [hsrcs] at hs ⊢
      rw [hkeys]
      by_cases hi : s = n
      · subst hi
        exact Or.inr (Or.inr (by rw [hb]; exact List.mem_cons_self _ _))
      · rcases hinv.open_reg s hs with h | h | h
        · exact Or.inl ((List.mem_erase_of_ne hi).2 h)
        · exact Or.inr (Or.inl h)
        · exact Or.inr (Or.inr h)

theorem SInv_step (n : SrcId) (w : World) (hinv : SInv w) : SInv (consumerStep n w) :=
  SInv_effect (consumerStep_effect n w hinv.destroy_clear) hinv

/-! ## The rendezvous -/

theorem executedBy_snoc {s n : SrcId} {cmd : Command} {w w' : World}
    (h : w'.executed = w.executed ++ [(n, cmd)]) :
    executedBy s w' = if n = s then executedBy s w ++ [cmd] else executedBy s w := by
  unfold executedBy
  rw [h, List.filter_append, List.map_append]
  by_cases hn : n = s
  · simp [hn]
  · simp [hn]

theorem Waiting_effect {s n : SrcId} {d : Bool} {L : List Command} {w w' : World}
    (heff : Effect n w w') (hw : Waiting s d L w) (hnot0 : w.notified = false) :
    Waiting s d L w' := by
  have hinv' : SInv w' := SInv_effect heff hw.inv
  obtain ⟨pre, hpre, hnb, hL⟩ := hw.pending hnot0
  cases heff with
  | idle h _ => subst h; exact hw
  | release nm cmd rest hn hb hc hsrcs hdestroy hsinks hnot hexec =>
    have hbuf_n : (w'.srcs n).buf = rest := by rw [hsrcs]; simp
    have hbuf_o : ∀ i, i ≠ n → (w'.srcs i).buf = (w.srcs i).buf := by
      intro i hi; rw [hsrcs]; simp [hi]
    have hsub : ∀ i c, c ∈ (w'.srcs i).buf → c ∈ (w.srcs i).buf := by
      intro i c hc'
      by_cases hi : i = n
      · subst hi; rw [hbuf_n] at hc'; rw [hb]; exact List.mem_cons_of_mem _ hc'
      · rw [hbuf_o i hi] at hc'; exact hc'
    have hothers : ∀ o, o ≠ s → ∀ c ∈ (w'.srcs o).buf, plain c = true :=
      fun o ho c hc' => hw.others o ho c (hsub o c hc')
    by_cases hns : n = s
    · subst hns
      rw [hb] at hpre
      cases pre with
      | nil =>
        simp only [List.nil_append, List.cons.injEq] at hpre
        obtain ⟨hcmd, hrest⟩ := hpre
        subst hcmd hrest
        have hd : d = false := by
          cases d
          · rfl
          · exact absurd rfl hc
        subst hd
        have hnot' : w'.notified = true := by rw [hnot]; simp
        refine ⟨hinv', hothers, fun h => (by rw [hnot'] at h; cases h), fun _ => ⟨?_, ?_, ?_⟩⟩
        · rw [executedBy_snoc hexec]; simpa using hL
        · rw [hbuf_n]; rfl
        · intro h; cases h
      | cons c pre' =>
        simp only [List.cons_append, List.cons.injEq] at hpre
        obtain ⟨hcmd, hrest⟩ := hpre
        subst hcmd hrest
        have hcb : isBarrier cmd = false := hnb cmd (List.mem_cons_self _ _)
        have hnot' : w'.notified = false := by
          rw [hnot, hnot0]
          cases cmd <;> simp_all [isBarrier]
        refine ⟨hinv', hothers, fun _ => ⟨pre', hbuf_n, ?_, ?_⟩,
          fun h => by rw [hnot'] at h; cases h⟩
        · intro c hc'; exact hnb c (List.mem_cons_of_mem _ hc')
        · rw [executedBy_snoc hexec]; simpa using hL
    · have hpl : plain cmd = true := hw.others n hns cmd (by rw [hb]; exact List.mem_cons_self _ _)
      have hnot' : w'.notified = false := by
        rw [hnot, hnot0]
        cases cmd <;> simp_all [plain]
      refine ⟨hinv', hothers, fun _ => ⟨pre, ?_, hnb, ?_⟩,
        fun h => by rw [hnot'] at h; cases h⟩
      · rw [hbuf_o s (fun h => hns h.symm)]; exact hpre
      · rw [executedBy_snoc hexec]; simpa [hns] using hL
  | terminal nm rest hn hb hsrcs hdestroy hsinks hnot hexec =>
    have hothers : ∀ o, o ≠ s → ∀ c ∈ (w'.srcs o).buf, plain c = true := by
      intro o ho c hc'; rw [hsrcs] at hc'; exact hw.others o ho c hc'
    by_cases hns : n = s
    · subst hns
      rw [hb] at hpre
      cases pre with
      | nil =>
        simp only [List.nil_append, List.cons.injEq] at hpre
        obtain ⟨hcmd, hrest⟩ := hpre
        injection hcmd with hd
        subst hd hrest
        refine ⟨hinv', hothers, fun h => (by rw [hnot] at h; cases h), fun _ => ⟨?_, ?_, fun _ => ⟨?_, ?_⟩⟩⟩
        · rw [executedBy_snoc hexec]; simpa using hL
        · rw [hsrcs, hb]; rfl
        · rw [hsinks, eraseSink_keys]
          intro hmem
          exact ((hw.inv.nodup.mem_erase_iff).1 hmem).1 rfl
        · intro o ho
          rw [hsrcs] at ho
          exact (hw.inv.add_fresh o n ho).2 (nameOf_mem hn)
      | cons c pre' =>
        simp only [List.cons_append, List.cons.injEq] at hpre
        obtain ⟨hcmd, _⟩ := hpre
        have := hnb c (List.mem_cons_self _ _)
        rw [← hcmd] at this
        simp [isBarrier] at this
    · have hpl : plain (Command.barrier true) = true :=
        hw.others n hns _ (by rw [hb]; exact List.mem_cons_self _ _)
      simp [plain] at hpl

theorem Waiting_step {s : SrcId} {d : Bool} {L : List Command} (n : SrcId) (w : World)
    (hw : Waiting s d L w) (hnot0 : w.notified = false) :
    Waiting s d L (consumerStep n w) :=
  Waiting_effect (consumerStep_effect n w hw.inv.destroy_clear) hw hnot0

/-! ## Posting -/

theorem post_buf_self (s : SrcId) (cmd : Command) (w : World) :
    ((post s cmd w).srcs s).buf = (w.srcs s).buf ++ [cmd] := by
  simp [post, World.setSrc]

theorem post_srcs_other (s : SrcId) (cmd : Command) (w : World) (i : SrcId) (h : i ≠ s) :
    (post s cmd w).srcs i = w.srcs i := by
  simp [post, World.setSrc, h]

theorem post_open (s : SrcId) (cmd : Command) (w : World) (i : SrcId) :
    ((post s cmd w).srcs i).open_ = (w.srcs i).open_ := by
  by_cases h : i = s
  · subst h; simp [post, World.setSrc]
  · rw [post_srcs_other s cmd w i h]

theorem post_level (s : SrcId) (cmd : Command) (w : World) (i : SrcId) :
    ((post s cmd w).srcs i).level = (w.srcs i).level := by
  by_cases h : i = s
  · subst h; simp [post, World.setSrc]
  · rw [post_srcs_other s cmd w i h]

theorem post_mem {s : SrcId} {cmd : Command} {w : World} {i : SrcId} {c : Command}
    (h : c ∈ ((post s cmd w).srcs i).buf) : c ∈ (w.srcs i).buf ∨ (i = s ∧ c = cmd) := by
  by_cases hi : i = s
  · subst hi
    rw [post_buf_self, List.mem_append, List.mem_singleton] at h
    rcases h with h | h
    · exact Or.inl h
    · exact Or.inr ⟨rfl, h⟩
  · rw [post_srcs_other s cmd w i hi] at h; exact Or.inl h

theorem mem_post {s : SrcId} {cmd : Command} {w : World} {i : SrcId} {c : Command}
    (h : c ∈ (w.srcs i).buf) : c ∈ ((post s cmd w).srcs i).buf := by
  by_cases hi : i = s
  · subst hi
    rw [post_buf_self]; exact List.mem_append_left _ h
  · rw [post_srcs_other s cmd w i hi]; exact h

/-- Posting anything but a re-registration to an open source keeps the structural
invariant. -/
theorem SInv_post {s : SrcId} {cmd : Command} {w : World} (hinv : SInv w)
    (hopen : (w.srcs s).open_ = true) (hcmd : ∀ t, cmd ≠ Command.add_source t) :
    SInv (post s cmd w) := by
  refine ⟨hinv.nodup, hinv.destroy_clear, ?_, ?_, ?_, ?_, ?_, ?_⟩
  · intro i hi
    rw [post_open]; exact hinv.reg_open i hi
  · intro i hi
    rw [post_open] at hi
    have hne : i ≠ s := by
      intro h; subst h; rw [hopen] at hi; cases hi
    rw [post_srcs_other s cmd w i hne]; exact hinv.closed_empty i hi
  · intro o t ht
    rw [post_open]
    rcases post_mem ht with h | ⟨_, h⟩
    · exact hinv.add_fresh o t h
    · exact absurd h.symm (hcmd t)
  · intro o o' t h1 h2
    rcases post_mem h1 with h1 | ⟨_, h1⟩
    · rcases post_mem h2 with h2 | ⟨_, h2⟩
      · exact hinv.add_unique o o' t h1 h2
      · exact absurd h2.symm (hcmd t)
    · exact absurd h1.symm (hcmd t)
  · intro o t
    by_cases hi : o = s
    · subst hi
      rw [post_buf_self, List.count_append]
      have : List.count (Command.add_source t) [cmd] = 0 :=
        List.count_eq_zero.2 (by simpa using fun h => hcmd t h.symm)
      rw [this]; exact hinv.add_once o t
    · rw [post_srcs_other s cmd w o hi]; exact hinv.add_once o t
  · intro i hi
    rw [post_open] at hi
    rcases hinv.open_reg i hi with h | ⟨o, h⟩ | h
    · exact Or.inl h
    · exact Or.inr (Or.inl ⟨o, mem_post h⟩)
    · exact Or.inr (Or.inr (mem_post h))

/-- The structural invariant does not read the rendezvous variables or the logs. -/
theorem SInv_congr (w w' : World) (hs : w'.srcs = w.srcs) (hc : w'.c = w.c)
    (hinv : SInv w) : SInv w' := by
  obtain ⟨h1, h2, h3, h4, h5, h6, h7, h8⟩ := hinv
  constructor
  · rw [hc]; exact h1
  · rw [hc]; exact h2
  · rw [hc, hs]; exact h3
  · rw [hs]; exact h4
  · rw [hc, hs]; exact h5
  · rw [hs]; exact h6
  · rw [hs]; exact h7
  · rw [hc, hs]; exact h8

/-- Entry of the wait of `sync(d)` on an open source whose buffer holds no barrier,
while every other buffer holds records and re-registrations only. -/
theorem sync_start {s : SrcId} (d : Bool) {w : World} (hinv : SInv w)
    (hothers : ∀ o, o ≠ s → ∀ c ∈ (w.srcs o).buf, plain c = true)
    (hself : ∀ c ∈ (w.srcs s).buf, isBarrier c = false)
    (hopen : (w.srcs s).open_ = true) :
    Waiting s d (executedBy s w ++ (w.srcs s).buf ++ [Command.barrier d])
      (post s (Command.barrier d) { w with locked := false, notified := false }) := by
  have hinv0 : SInv { w with locked := false, notified := false } := SInv_congr w _ rfl rfl hinv
  refine ⟨SInv_post hinv0 hopen (by intro t h; cases h), ?_, ?_, ?_⟩
  · intro o ho c hc
    rw [post_srcs_other _ _ _ o ho] at hc
    exact hothers o ho c hc
  · intro _
    exact ⟨(w.srcs s).buf, post_buf_self _ _ _, hself, rfl⟩
  · intro h
    cases h

/-- A property kept by every consumer step taken during the wait holds, together
with the rendezvous state, when the wait returns. -/
theorem wait_track {s : SrcId} {d : Bool} {L : List Command} (Q : World → Prop)
    (hQ : ∀ n w, Waiting s d L w → w.notified = false → Q w → Q (consumerStep n w))
    (sched : List SrcId) (w w' : World) (hw : Waiting s d L w) (hq : Q w)
    (h : wait sched w = some w') : Waiting s d L w' ∧ Q w' ∧ w'.notified = true := by
  have := wait_induct (fun v => Waiting s d L v ∧ Q v)
    (fun n v hv hn => ⟨Waiting_step n v hv.1 hn, hQ n v hv.1 hn hv.2⟩) sched w w' ⟨hw, hq⟩ h
  exact ⟨this.1.1, this.1.2, this.2⟩

/-! ## Invariant between member function calls -/

theorem plain_not_barrier {c : Command} (h : plain c = true) : isBarrier c = false := by
  cases c <;> simp_all [plain, isBarrier]

theorem Inv.open_cases {w : World} (h : Inv w) {s : SrcId} (ho : (w.srcs s).open_ = true) :
    s ∈ w.c.sinks.map Prod.fst ∨ ∃ o, Command.add_source s ∈ (w.srcs o).buf := by
  rcases h.sinv.open_reg s ho with h1 | h1 | h1
  · exact Or.inl h1
  · exact Or.inr h1
  · have := h.quiet s _ h1
    simp [plain] at this

theorem SInv.closed_facts {w : World} (h : SInv w) {s : SrcId}
    (hc : (w.srcs s).open_ = false) :
    s ∉ w.c.sinks.map Prod.fst ∧ (∀ o, Command.add_source s ∉ (w.srcs o).buf) ∧
      (w.srcs s).buf = [] := by
  refine ⟨?_, ?_, h.closed_empty s hc⟩
  · intro hm
    have := h.reg_open s hm
    rw [hc] at this; cases this
  · intro o ho
    have := (h.add_fresh o s ho).1
    rw [hc] at this; cases this

theorem Inv_init : Inv World.init := by
  refine ⟨⟨?_, rfl, ?_, ?_, ?_, ?_, ?_, ?_⟩, ?_⟩ <;> simp [World.init, Source.fresh]

theorem Inv_step (n : SrcId) {w : World} (h : Inv w) : Inv (consumerStep n w) :=
  ⟨SInv_step n w h.sinv, fun o c hc =>
    h.quiet o c ((consumerStep_buf_suffix n o w).subset hc)⟩

/-- The tail of `close`: after a terminal barrier has run on `s`, setting
`open_ = false` and clearing the buffer restores the invariant. -/
theorem Inv_of_closed_tail {s : SrcId} {w w' : World} (hinv : SInv w)
    (hothers : ∀ o, o ≠ s → ∀ c ∈ (w.srcs o).buf, plain c = true)
    (hreg : s ∉ w.c.sinks.map Prod.fst)
    (hadd : ∀ o, Command.add_source s ∉ (w.srcs o).buf)
    (hself : ∀ t, Command.add_source t ∉ (w.srcs s).buf)
    (hc : w'.c = w.c)
    (hopen : ∀ i, (w'.srcs i).open_ = if i = s then false else (w.srcs i).open_)
    (hbuf : ∀ i, (w'.srcs i).buf = if i = s then [] else (w.srcs i).buf) :
    Inv w' := by
  have hsub : ∀ i c, c ∈ (w'.srcs i).buf → c ∈ (w.srcs i).buf ∧ i ≠ s := by
    intro i c hc'
    rw [hbuf] at hc'
    by_cases hi : i = s
    · simp [hi] at hc'
    · simp only [hi, if_false] at hc'; exact ⟨hc', hi⟩
  refine ⟨⟨by rw [hc]; exact hinv.nodup, by rw [hc]; exact hinv.destroy_clear,
    ?_, ?_, ?_, ?_, ?_, ?_⟩, ?_⟩
  · intro i hi
    rw [hc] at hi
    have hne : i ≠ s := fun h => hreg (h ▸ hi)
    rw [hopen]; simp only [hne, if_false]; exact hinv.reg_open i hi
  · intro i hi
    rw [hopen] at hi
    rw [hbuf]
    by_cases hne : i = s
    · simp [hne]
    · simp only [hne, if_false] at hi ⊢; exact hinv.closed_empty i hi
  · intro o t ht
    obtain ⟨ht', _⟩ := hsub o _ ht
    have h1 := hinv.add_fresh o t ht'
    have hne : t ≠ s := fun h => hadd o (h ▸ ht')
    rw [hopen, hc]; simp only [hne, if_false]; exact h1
  · intro o o' t h1 h2
    exact hinv.add_unique o o' t (hsub o _ h1).1 (hsub o' _ h2).1
  · intro o t
    rw [hbuf]
    by_cases hne : o = s
    · simp [hne]
    · simp only [hne, if_false]; exact hinv.add_once o t
  · intro i hi
    rw [hopen] at hi
    by_cases hne : i = s
    · simp [hne] at hi
    · simp only [hne, if_false] at hi
      rw [hc]
      rcases hinv.open_reg i hi with h | ⟨o, h⟩ | h
      · exact Or.inl h
      · refine Or.inr (Or.inl ⟨o, ?_⟩)
        rw [hbuf]
        by_cases ho : o = s
        · subst ho
          exact absurd h (hself i)
        · simp only [ho, if_false]; exact h
      · have := hothers i hne _ h
        simp [plain] at this
  · intro o c hc'
    obtain ⟨h1, h2⟩ := hsub o c hc'
    exact hothers o h2 c h1

/-! ## Name slots during a wait -/

/-- The name slot of `x` survives a consumer step when the buffer of `x` holds only
records, re-registrations and non-destroying barriers. -/
theorem name_stable_effect {n x : SrcId} {w w' : World} {v : String}
    (heff : Effect n w w')
    (hcalm : ∀ c ∈ (w.srcs x).buf, plain c = true ∨ c = Command.barrier false)
    (hname : nameOf x w.c.sinks = some v) : nameOf x w'.c.sinks = some v := by
  cases heff with
  | idle h _ => subst h; exact hname
  | release nm cmd rest hn hb hc hsrcs hdestroy hsinks hnot hexec =>
    rw [hsinks]
    cases cmd with
    | record r => exact hname
    | add_source t => exact nameOf_append_of_some hname _
    | rename nm' =>
      by_cases hx : x = n
      · subst hx
        have := hcalm (Command.rename nm') (by rw [hb]; exact List.mem_cons_self _ _)
        simp [plain] at this
      · simp only [sinksAfter]
        rw [nameOf_setName_other nm' _ hx]; exact hname
    | barrier d => exact hname
  | terminal nm rest hn hb hsrcs hdestroy hsinks hnot hexec =>
    by_cases hx : x = n
    · subst hx
      have := hcalm (Command.barrier true) (by rw [hb]; exact List.mem_cons_self _ _)
      simp [plain] at this
    · rw [hsinks, nameOf_eraseSink_other _ hx]; exact hname

/-- During the wait of a `sync` on `s`, the name slot of any other source is kept. -/
theorem wait_name_other {s x : SrcId} {d : Bool} {L : List Command} {v : String}
    (hx : x ≠ s) (sched : List SrcId) (w w' : World) (hw : Waiting s d L w)
    (hname : nameOf x w.c.sinks = some v) (h : wait sched w = some w') :
    nameOf x w'.c.sinks = some v :=
  (wait_track (fun u => nameOf x u.c.sinks = some v)
    (fun n u hu _ hq => name_stable_effect (consumerStep_effect n u hu.inv.destroy_clear)
      (fun c hc => Or.inl (hu.others x hx c hc)) hq) sched w w' hw hname h).2.1

/-- Buffers only lose items under a consumer step, so a bound on their contents is
kept. -/
theorem calm_step {x : SrcId} (P : Command → Prop) (n : SrcId) (w : World)
    (h : ∀ c ∈ (w.srcs x).buf, P c) : ∀ c ∈ ((consumerStep n w).srcs x).buf, P c :=
  fun c hc => h c ((consumerStep_buf_suffix n x w).subset hc)

/-- During the wait of a non-destroying `sync` on `s` whose buffer held no rename,
the name slot of `s` itself is kept. -/
theorem wait_name_self {s : SrcId} {L : List Command} {v : String}
    (sched : List SrcId) (w w' : World) (hw : Waiting s false L w)
    (hcalm : ∀ c ∈ (w.srcs s).buf, plain c = true ∨ c = Command.barrier false)
    (hname : nameOf s w.c.sinks = some v) (h : wait sched w = some w') :
    nameOf s w'.c.sinks = some v :=
  (wait_track
    (fun u => (∀ c ∈ (u.srcs s).buf, plain c = true ∨ c = Command.barrier false) ∧
      nameOf s u.c.sinks = some v)
    (fun n u hu _ hq => ⟨calm_step _ n u hq.1,
      name_stable_effect (consumerStep_effect n u hu.inv.destroy_clear) hq.1 hq.2⟩)
    sched w w' hw ⟨hcalm, hname⟩ h).2.1.2

/-! ## Specifications of `sync` and `set_name` -/

theorem Inv_of_done {s : SrcId} {L : List Command} {w : World}
    (hw : Waiting s false L w) (hn : w.notified = true) : Inv w := by
  refine ⟨hw.inv, ?_⟩
  intro o c hc
  by_cases ho : o = s
  · subst ho
    rw [(hw.done hn).2.1] at hc
    simp at hc
  · exact hw.others o ho c hc

/-- Non-destroying `sync` called on an open source between two calls. -/
theorem sync_spec {s : SrcId} {sched : List SrcId} {w w' : World} (hinv : Inv w)
    (hopen : (w.srcs s).open_ = true) (h : source.sync sched s false w = some w') :
    Inv w' ∧ w'.notified = true ∧
    executedBy s w' = executedBy s w ++ (w.srcs s).buf ++ [Command.barrier false] ∧
    (w'.srcs s).buf = [] ∧
    (∀ x v, nameOf x w.c.sinks = some v → nameOf x w'.c.sinks = some v) := by
  have hw0 := sync_start false hinv.sinv (fun o _ c hc => hinv.quiet o c hc)
    (fun c hc => plain_not_barrier (hinv.quiet s c hc)) hopen
  have hres := wait_track (fun _ => True) (fun _ _ _ _ _ => trivial) sched _ w' hw0 trivial h
  refine ⟨Inv_of_done hres.1 hres.2.2, hres.2.2, (hres.1.done hres.2.2).1,
    (hres.1.done hres.2.2).2.1, ?_⟩
  intro x v hx
  by_cases hxs : x = s
  · subst hxs
    refine wait_name_self sched _ w' hw0 ?_ hx h
    intro c hc
    rcases post_mem hc with hc | ⟨_, hc⟩
    · exact Or.inl (hinv.quiet x c hc)
    · exact Or.inr hc
  · exact wait_name_other hxs sched _ w' hw0 hx h

theorem RenameState_effect {s n : SrcId} {nm : String} {L : List Command} {w w' : World}
    (heff : Effect n w w') (hw : Waiting s false L w) (hq : RenameState s nm w) :
    RenameState s nm w' := by
  cases heff with
  | idle h _ => subst h; exact hq
  | release nm0 cmd rest hn hb hc hsrcs hdestroy hsinks hnot hexec =>
    have hbuf_n : (w'.srcs n).buf = rest := by rw [hsrcs]; simp
    have hbuf_o : ∀ i, i ≠ n → (w'.srcs i).buf = (w.srcs i).buf := by
      intro i hi; rw [hsrcs]; simp [hi]
    by_cases hns : n = s
    · subst hns
      rcases hq with ⟨pre, hpre, hpl⟩ | ⟨hall, hname⟩
      · rw [hb] at hpre
        cases pre with
        | nil =>
          simp only [List.nil_append, List.cons.injEq] at hpre
          obtain ⟨hcmd, hrest⟩ := hpre
          subst hcmd hrest
          refine Or.inr ⟨?_, ?_⟩
          · rw [hbuf_n]; intro c hc'; simpa using hc'
          · rw [hsinks]; exact nameOf_setName_same nm (nameOf_mem hn)
        | cons c pre' =>
          simp only [List.cons_append, List.cons.injEq] at hpre
          obtain ⟨hcmd, hrest⟩ := hpre
          subst hcmd hrest
          exact Or.inl ⟨pre', hbuf_n, fun c hc' => hpl c (List.mem_cons_of_mem _ hc')⟩
      · have hcmd : cmd = Command.barrier false := hall cmd (by rw [hb]; exact List.mem_cons_self _ _)
        subst hcmd
        refine Or.inr ⟨?_, ?_⟩
        · rw [hbuf_n]; intro c hc'; exact hall c (by rw [hb]; exact List.mem_cons_of_mem _ hc')
        · rw [hsinks]; exact hname
    · have hsn : s ≠ n := fun h => hns h.symm
      rcases hq with ⟨pre, hpre, hpl⟩ | ⟨hall, hname⟩
      · exact Or.inl ⟨pre, by rw [hbuf_o s hsn]; exact hpre, hpl⟩
      · refine Or.inr ⟨by rw [hbuf_o s hsn]; exact hall, ?_⟩
        have hpc : plain cmd = true := hw.others n hns cmd (by rw [hb]; exact List.mem_cons_self _ _)
        rw [hsinks]
        cases cmd with
        | record r => exact hname
        | add_source t => exact nameOf_append_of_some hname _
        | rename nm' => simp [plain] at hpc
        | barrier d => simp [plain] at hpc
  | terminal nm0 rest hn hb hsrcs hdestroy hsinks hnot hexec =>
    by_cases hns : n = s
    · subst hns
      rcases hq with ⟨pre, hpre, hpl⟩ | ⟨hall, hname⟩
      · rw [hb] at hpre
        cases pre with
        | nil => simp at hpre
        | cons c pre' =>
          simp only [List.cons_append, List.cons.injEq] at hpre
          have := hpl c (List.mem_cons_self _ _)
          rw [← hpre.1] at this
          simp [plain] at this
      · have := hall (Command.barrier true) (by rw [hb]; exact List.mem_cons_self _ _)
        cases this
    · have := hw.others n hns (Command.barrier true) (by rw [hb]; exact List.mem_cons_self _ _)
      simp [plain] at this

/-- Specification of `set_name` called on an open source between two calls. -/
theorem set_name_spec {s : SrcId} {nm : String} {sched : List SrcId} {w w' : World}
    (hinv : Inv w) (hopen : (w.srcs s).open_ = true)
    (h : source.set_name sched s nm w = some w') :
    Inv w' ∧ w'.notified = true ∧
    executedBy s w' = executedBy s w ++ (w.srcs s).buf ++
      [Command.rename nm, Command.barrier false] ∧
    (w'.srcs s).buf = [] ∧ nameOf s w'.c.sinks = some nm := by
  have hopen1 : ((post s (Command.rename nm) w).srcs s).open_ = true := by
    rw [post_open]; exact hopen
  have hw0 := sync_start false
    (SInv_post hinv.sinv hopen (by intro t ht; cases ht))
    (fun o ho c hc => by
      rw [post_srcs_other _ _ _ o ho] at hc; exact hinv.quiet o c hc)
    (fun c hc => by
      rcases post_mem hc with hc | ⟨_, hc⟩
      · exact plain_not_barrier (hinv.quiet s c hc)
      · subst hc; rfl) hopen1
  have hq0 : RenameState s nm (post s (Command.barrier false)
      { post s (Command.rename nm) w with locked := false, notified := false }) := by
    refine Or.inl ⟨(w.srcs s).buf, ?_, fun c hc => hinv.quiet s c hc⟩
    rw [post_buf_self]
    have : ({ post s (Command.rename nm) w with locked := false, notified := false } : World).srcs s
        = (post s (Command.rename nm) w).srcs s := rfl
    rw [this, post_buf_self]
    simp
  have hres := wait_track (RenameState s nm)
    (fun n u hu _ hq => RenameState_effect (consumerStep_effect n u hu.inv.destroy_clear) hu hq)
    sched _ w' hw0 hq0 h
  have hdone := hres.1.done hres.2.2
  refine ⟨Inv_of_done hres.1 hres.2.2, hres.2.2, ?_, hdone.2.1, ?_⟩
  · rw [hdone.1, post_buf_self]
    have : executedBy s (post s (Command.rename nm) w) = executedBy s w := rfl
    rw [this]; simp
  · rcases hres.2.1 with ⟨pre, hpre, _⟩ | ⟨_, hname⟩
    · rw [hdone.2.1] at hpre
      simp at hpre
    · exact hname

/-! ## Specification of `close` -/

theorem close_of_closed (sched : List SrcId) (s : SrcId) (w : World)
    (hc : (w.srcs s).open_ = false) : source.close sched s w = some w := by
  simp [source.close, hc]

theorem close_of_open {sched : List SrcId} {s : SrcId} {w w' : World}
    (ho : (w.srcs s).open_ = true) (h : source.close sched s w = some w') :
    ∃ w1, source.sync sched s true w = some w1 ∧
      w' = clear s (w1.setSrc s { w1.srcs s with open_ := false }) := by
  unfold source.close at h
  rw [if_pos ho] at h
  split at h
  · cases h
  · next w1 hw1 =>
    injection h with h
    exact ⟨w1, hw1, h.symm⟩

theorem close_tail_open (s i : SrcId) (w : World) :
    ((clear s (w.setSrc s { w.srcs s with open_ := false })).srcs i).open_
      = if i = s then false else (w.srcs i).open_ := by
  by_cases h : i = s <;> simp [clear, World.setSrc, h]

theorem close_tail_buf (s i : SrcId) (w : World) :
    ((clear s (w.setSrc s { w.srcs s with open_ := false })).srcs i).buf
      = if i = s then [] else (w.srcs i).buf := by
  by_cases h : i = s <;> simp [clear, World.setSrc, h]

theorem close_tail_level (s i : SrcId) (w : World) :
    ((clear s (w.setSrc s { w.srcs s with open_ := false })).srcs i).level
      = (w.srcs i).level := by
  by_cases h : i = s
  · subst h; simp [clear, World.setSrc]
  · simp [clear, World.setSrc, h]

/-- Specification of `close` called between two calls. -/
theorem close_spec {s : SrcId} {sched : List SrcId} {w w' : World} (hinv : Inv w)
    (h : source.close sched s w = some w') :
    Inv w' ∧ (w'.srcs s).open_ = false ∧ (w'.srcs s).buf = [] ∧
    (∀ i, i ≠ s → w'.srcs i = w.srcs i ∨
      ((w'.srcs i).open_ = (w.srcs i).open_ ∧ (w'.srcs i).buf <:+ (w.srcs i).buf)) ∧
    (∀ x v, x ≠ s → nameOf x w.c.sinks = some v → nameOf x w'.c.sinks = some v) ∧
    ((w.srcs s).open_ = true →
      executedBy s w' = executedBy s w ++ (w.srcs s).buf ++ [Command.barrier true] ∧
      w'.notified = true) := by
  by_cases ho : (w.srcs s).open_ = true
  · obtain ⟨w1, hsync, hw'⟩ := close_of_open ho h
    have hw0 := sync_start true hinv.sinv (fun o _ c hc => hinv.quiet o c hc)
      (fun c hc => plain_not_barrier (hinv.quiet s c hc)) ho
    have hres := wait_track (fun _ => True) (fun _ _ _ _ _ => trivial) sched _ w1 hw0 trivial hsync
    have hdone := hres.1.done hres.2.2
    have hbuf1 : (w1.srcs s).buf = [Command.barrier true] := hdone.2.1
    have hinv' : Inv w' := by
      refine Inv_of_closed_tail hres.1.inv hres.1.others (hdone.2.2 rfl).1 (hdone.2.2 rfl).2
        ?_ ?_ ?_ ?_
      · intro t ht; rw [hbuf1] at ht; simp at ht
      · rw [hw']; rfl
      · intro i; rw [hw']; exact close_tail_open s i w1
      · intro i; rw [hw']; exact close_tail_buf s i w1
    refine ⟨hinv', ?_, ?_, ?_, ?_, ?_⟩
    · rw [hw', close_tail_open]; simp
    · rw [hw', close_tail_buf]; simp
    · intro i hi
      right
      constructor
      · rw [hw', close_tail_open]; simp only [hi, if_false]
        rw [wait_open sched i _ w1 hsync, post_open]
      · rw [hw', close_tail_buf]; simp only [hi, if_false]
        have := wait_buf_suffix sched i _ w1 hsync
        rw [post_srcs_other _ _ _ i hi] at this
        exact this
    · intro x v hx hname
      have : w'.c = w1.c := by rw [hw']; rfl
      rw [this]
      exact wait_name_other hx sched _ w1 hw0 hname hsync
    · intro _
      have h1 : w'.executed = w1.executed := by rw [hw']; rfl
      have h2 : w'.notified = w1.notified := by rw [hw']; rfl
      refine ⟨?_, by rw [h2]; exact hres.2.2⟩
      unfold executedBy at hdone ⊢
      rw [h1]; exact hdone.1
  · have hc : (w.srcs s).open_ = false := by simpa using ho
    rw [close_of_closed sched s w hc] at h
    injection h with h
    subst h
    exact ⟨hinv, hc, hinv.sinv.closed_empty s hc, fun i _ => Or.inl rfl,
      fun x v _ hname => hname, fun h => absurd h ho⟩

/-! ## Specification of `operator=` -/

/-- The tail of `operator=` when `other` is open: the re-registration is posted on
the buffer of `other` and the closed destination is marked open. -/
theorem Inv_of_assign_tail {self other : SrcId} {w w' : World} (hinv : Inv w)
    (hclosed : (w.srcs self).open_ = false) (hother : (w.srcs other).open_ = true)
    (hc : w'.c = w.c)
    (hopen : ∀ i, (w'.srcs i).open_ = if i = self then true else (w.srcs i).open_)
    (hbuf : ∀ i, (w'.srcs i).buf =
      if i = other then (w.srcs i).buf ++ [Command.add_source self] else (w.srcs i).buf) :
    Inv w' := by
  obtain ⟨hreg, hadd, hempty⟩ := hinv.sinv.closed_facts hclosed
  have hmem : ∀ i c, c ∈ (w'.srcs i).buf →
      c ∈ (w.srcs i).buf ∨ (i = other ∧ c = Command.add_source self) := by
    intro i c hc'
    rw [hbuf] at hc'
    by_cases hi : i = other
    · simp only [hi, if_true, List.mem_append, List.mem_singleton] at hc'
      rcases hc' with hc' | hc'
      · exact Or.inl (hi ▸ hc')
      · exact Or.inr ⟨hi, hc'⟩
    · simp only [hi, if_false] at hc'; exact Or.inl hc'
  have hmem' : ∀ i c, c ∈ (w.srcs i).buf → c ∈ (w'.srcs i).buf := by
    intro i c hc'
    rw [hbuf]
    by_cases hi : i = other
    · simp only [hi, if_true]; exact List.mem_append_left _ (hi ▸ hc')
    · simp only [hi, if_false]; exact hc'
  have hopen_mono : ∀ i, (w.srcs i).open_ = true → (w'.srcs i).open_ = true := by
    intro i hi
    rw [hopen]; split
    · rfl
    · exact hi
  refine ⟨⟨by rw [hc]; exact hinv.sinv.nodup, by rw [hc]; exact hinv.sinv.destroy_clear,
    ?_, ?_, ?_, ?_, ?_, ?_⟩, ?_⟩
  · intro i hi
    rw [hc] at hi
    exact hopen_mono i (hinv.sinv.reg_open i hi)
  · intro i hi
    rw [hopen] at hi
    by_cases hs : i = self
    · simp [hs] at hi
    · simp only [hs, if_false] at hi
      have hio : i ≠ other := by
        intro h; subst h; rw [hother] at hi; cases hi
      rw [hbuf]; simp only [hio, if_false]
      exact hinv.sinv.closed_empty i hi
  · intro o t ht
    rw [hc]
    rcases hmem o _ ht with h | ⟨_, h⟩
    · have := hinv.sinv.add_fresh o t h
      exact ⟨hopen_mono t this.1, this.2⟩
    · injection h with h
      subst h
      exact ⟨by rw [hopen]; simp, hreg⟩
  · intro o o' t h1 h2
    rcases hmem o _ h1 with h1 | ⟨ho, h1⟩
    · rcases hmem o' _ h2 with h2 | ⟨_, h2⟩
      · exact hinv.sinv.add_unique o o' t h1 h2
      · injection h2 with h2
        subst h2
        exact absurd h1 (hadd o)
    · injection h1 with h1
      subst h1
      rcases hmem o' _ h2 with h2 | ⟨ho', _⟩
      · exact absurd h2 (hadd o')
      · rw [ho, ho']
  · intro o t
    rw [hbuf]
    by_cases ho : o = other
    · simp only [ho, if_true, List.count_append]
      by_cases ht : t = self
      · subst ht
        have : List.count (Command.add_source t) (w.srcs other).buf = 0 :=
          List.count_eq_zero.2 (hadd other)
        rw [this]; simp
      · have : List.count (Command.add_source t) [Command.add_source self] = 0 :=
          List.count_eq_zero.2 (by simpa using ht)
        rw [this]; exact hinv.sinv.add_once other t
    · simp only [ho, if_false]; exact hinv.sinv.add_once o t
  · intro i hi
    rw [hc]
    by_cases hs : i = self
    · subst hs
      refine Or.inr (Or.inl ⟨other, ?_⟩)
      rw [hbuf]; simp
    · rw [hopen] at hi
      simp only [hs, if_false] at hi
      rcases hinv.sinv.open_reg i hi with h | ⟨o, h⟩ | h
      · exact Or.inl h
      · exact Or.inr (Or.inl ⟨o, hmem' o _ h⟩)
      · exact Or.inr (Or.inr (hmem' i _ h))
  · intro o c hc'
    rcases hmem o c hc' with h | ⟨_, h⟩
    · exact hinv.quiet o c h
    · subst h; rfl

/-- The invariant does not read `level_`. -/
theorem Inv_of_same {w w' : World} (hinv : Inv w) (hc : w'.c = w.c)
    (hopen : ∀ i, (w'.srcs i).open_ = (w.srcs i).open_)
    (hbuf : ∀ i, (w'.srcs i).buf = (w.srcs i).buf) : Inv w' := by
  obtain ⟨⟨h1, h2, h3, h4, h5, h6, h7, h8⟩, h9⟩ := hinv
  refine ⟨⟨by rw [hc]; exact h1, by rw [hc]; exact h2, ?_, ?_, ?_, ?_, ?_, ?_⟩, ?_⟩
  · intro i hi; rw [hc] at hi; rw [hopen]; exact h3 i hi
  · intro i hi; rw [hopen] at hi; rw [hbuf]; exact h4 i hi
  · intro o t ht; rw [hbuf] at ht; rw [hopen, hc]; exact h5 o t ht
  · intro o o' t a b; rw [hbuf] at a b; exact h6 o o' t a b
  · intro o t; rw [hbuf]; exact h7 o t
  · intro i hi
    rw [hopen] at hi; rw [hc]
    rcases h8 i hi with h | ⟨o, h⟩ | h
    · exact Or.inl h
    · exact Or.inr (Or.inl ⟨o, by rw [hbuf]; exact h⟩)
    · exact Or.inr (Or.inr (by rw [hbuf]; exact h))
  · intro o c hc'; rw [hbuf] at hc'; exact h9 o c hc'

theorem assign_unfold {sched : List SrcId} {self other : SrcId} {w w' : World}
    (hne : self ≠ other) (h : source.operator_assign sched self other w = some w') :
    ∃ w1, source.close sched self w = some w1 ∧
      w' = (if (w1.srcs other).open_ = true then
        (post other (Command.add_source self)
          (w1.setSrc self { w1.srcs self with level := (w1.srcs other).level })).setSrc self
          { level := (w1.srcs other).level, open_ := true, buf := (w1.srcs self).buf }
        else w1.setSrc self { w1.srcs self with level := (w1.srcs other).level }) := by
  unfold source.operator_assign at h
  rw [if_neg hne] at h
  split at h
  · cases h
  · next w1 hw1 =>
    refine ⟨w1, hw1, ?_⟩
    have hos : ¬ other = self := fun h => hne h.symm
    have hso : ((w1.setSrc self { w1.srcs self with level := (w1.srcs other).level }).srcs
        other) = w1.srcs other := by
      simp [World.setSrc, hos]
    dsimp only at h
    rw [hso] at h
    by_cases ho : (w1.srcs other).open_ = true
    · rw [if_pos ho] at h ⊢
      injection h with h
      rw [← h]
      congr 1
      simp [post, World.setSrc, hne]
    · rw [if_neg ho] at h ⊢
      injection h with h
      exact h.symm

/-- Specification of `operator=` between two distinct sources. -/
theorem assign_spec {sched : List SrcId} {self other : SrcId} {w w' : World}
    (hne : self ≠ other) (hinv : Inv w)
    (h : source.operator_assign sched self other w = some w') :
    Inv w' ∧
    (∀ x v, x ≠ self → nameOf x w.c.sinks = some v → nameOf x w'.c.sinks = some v) ∧
    ((w.srcs other).open_ = true →
      (w'.srcs self).open_ = true ∧ self ∉ w'.c.sinks.map Prod.fst ∧
      Command.add_source self ∈ (w'.srcs other).buf) := by
  obtain ⟨w1, hclose, hw'⟩ := assign_unfold hne h
  obtain ⟨hinv1, hcl1, _, hfr1, hnm1, _⟩ := close_spec hinv hclose
  have hos : other ≠ self := fun h => hne h.symm
  have hoo : (w1.srcs other).open_ = (w.srcs other).open_ := by
    rcases hfr1 other hos with h | h
    · rw [h]
    · exact h.1
  by_cases ho : (w1.srcs other).open_ = true
  · rw [if_pos ho] at hw'
    have hc : w'.c = w1.c := by rw [hw']; rfl
    have hopen : ∀ i, (w'.srcs i).open_ = if i = self then true else (w1.srcs i).open_ := by
      intro i
      rw [hw']
      by_cases h1 : i = self
      · simp [World.setSrc, h1]
      · by_cases h2 : i = other
        · subst h2; simp [World.setSrc, post, h1]
        · simp [World.setSrc, post, h1, h2]
    have hbuf : ∀ i, (w'.srcs i).buf =
        if i = other then (w1.srcs i).buf ++ [Command.add_source self]
        else (w1.srcs i).buf := by
      intro i
      rw [hw']
      by_cases h1 : i = self
      · subst h1; simp [World.setSrc, hne]
      · by_cases h2 : i = other
        · subst h2; simp [World.setSrc, post, h1]
        · simp [World.setSrc, post, h1, h2]
    refine ⟨Inv_of_assign_tail hinv1 hcl1 ho hc hopen hbuf, ?_, ?_⟩
    · intro x v hx hname
      rw [hc]; exact hnm1 x v hx hname
    · intro _
      refine ⟨by rw [hopen]; simp, ?_, by rw [hbuf]; simp⟩
      rw [hc]; exact (hinv1.sinv.closed_facts hcl1).1
  · rw [if_neg ho] at hw'
    have hc : w'.c = w1.c := by rw [hw']; rfl
    have hopen : ∀ i, (w'.srcs i).open_ = (w1.srcs i).open_ := by
      intro i
      rw [hw']
      by_cases h1 : i = self
      · subst h1; simp [World.setSrc]
      · simp [World.setSrc, h1]
    have hbuf : ∀ i, (w'.srcs i).buf = (w1.srcs i).buf := by
      intro i
      rw [hw']
      by_cases h1 : i = self
      · subst h1; simp [World.setSrc]
      · simp [World.setSrc, h1]
    refine ⟨Inv_of_same hinv1 hc hopen hbuf, ?_, ?_⟩
    · intro x v hx hname
      rw [hc]; exact hnm1 x v hx hname
    · intro hopen0
      rw [hoo] at ho
      exact absurd hopen0 ho

/-! ## Construction and record posting -/

theorem construct_Inv {s : SrcId} (name : String) {w : World} (hinv : Inv w)
    (hclosed : (w.srcs s).open_ = false) : Inv (source.construct s name w) := by
  obtain ⟨hreg, hadd, hempty⟩ := hinv.sinv.closed_facts hclosed
  have hkeys : (source.construct s name w).c.sinks.map Prod.fst
      = w.c.sinks.map Prod.fst ++ [s] := by
    simp [source.construct, register_source, World.setSrc]
  have hopen : ∀ i, ((source.construct s name w).srcs i).open_
      = if i = s then true else (w.srcs i).open_ := by
    intro i
    by_cases h : i = s <;> simp [source.construct, register_source, World.setSrc, h]
  have hbuf : ∀ i, ((source.construct s name w).srcs i).buf = (w.srcs i).buf := by
    intro i
    by_cases h : i = s
    · subst h; simp [source.construct, register_source, World.setSrc, Source.fresh, hempty]
    · simp [source.construct, register_source, World.setSrc, h]
  have hopen_mono : ∀ i, (w.srcs i).open_ = true →
      ((source.construct s name w).srcs i).open_ = true := by
    intro i hi
    rw [hopen]; split
    · rfl
    · exact hi
  refine ⟨⟨?_, hinv.sinv.destroy_clear, ?_, ?_, ?_, ?_, ?_, ?_⟩, ?_⟩
  · rw [hkeys]
    refine List.Nodup.append hinv.sinv.nodup (List.nodup_singleton s) ?_
    intro a ha hb
    simp only [List.mem_singleton] at hb
    subst hb
    exact hreg ha
  · intro i hi
    rw [hkeys, List.mem_append, List.mem_singleton] at hi
    rcases hi with hi | hi
    · exact hopen_mono i (hinv.sinv.reg_open i hi)
    · rw [hopen]; simp [hi]
  · intro i hi
    rw [hopen] at hi
    rw [hbuf]
    by_cases h : i = s
    · rw [h]; exact hempty
    · simp only [h, if_false] at hi; exact hinv.sinv.closed_empty i hi
  · intro o t ht
    rw [hbuf] at ht
    have h1 := hinv.sinv.add_fresh o t ht
    refine ⟨hopen_mono t h1.1, ?_⟩
    rw [hkeys, List.mem_append, List.mem_singleton]
    rintro (h | h)
    · exact h1.2 h
    · subst h; exact hadd o ht
  · intro o o' t h1 h2
    rw [hbuf] at h1 h2
    exact hinv.sinv.add_unique o o' t h1 h2
  · intro o t
    rw [hbuf]; exact hinv.sinv.add_once o t
  · intro i hi
    rw [hkeys]
    by_cases h : i = s
    · exact Or.inl (List.mem_append_right _ (by simp [h]))
    · rw [hopen] at hi
      simp only [h, if_false] at hi
      rcases hinv.sinv.open_reg i hi with h1 | ⟨o, h1⟩ | h1
      · exact Or.inl (List.mem_append_left _ h1)
      · exact Or.inr (Or.inl ⟨o, by rw [hbuf]; exact h1⟩)
      · exact Or.inr (Or.inr (by rw [hbuf]; exact h1))
  · intro o c hc
    rw [hbuf] at hc; exact hinv.quiet o c hc

theorem fresh_Inv {s : SrcId} {w : World} (hinv : Inv w)
    (hclosed : (w.srcs s).open_ = false) : Inv (w.setSrc s Source.fresh) := by
  refine Inv_of_same hinv rfl ?_ ?_
  · intro i
    by_cases h : i = s
    · subst h; simp [World.setSrc, Source.fresh, hclosed]
    · simp [World.setSrc, h]
  · intro i
    by_cases h : i = s
    · subst h; simp [World.setSrc, Source.fresh, hinv.sinv.closed_empty i hclosed]
    · simp [World.setSrc, h]

theorem post_record_Inv {s : SrcId} (r : Nat) {w : World} (hinv : Inv w)
    (hopen : (w.srcs s).open_ = true) : Inv (post s (Command.record r) w) := by
  refine ⟨SInv_post hinv.sinv hopen (by intro t h; cases h), ?_⟩
  intro o c hc
  rcases post_mem hc with hc | ⟨_, hc⟩
  · exact hinv.quiet o c hc
  · subst hc; rfl

theorem assign_Inv {sched : List SrcId} {self other : SrcId} {w w' : World}
    (hinv : Inv w) (h : source.operator_assign sched self other w = some w') : Inv w' := by
  by_cases hne : self = other
  · unfold source.operator_assign at h
    rw [if_pos hne] at h
    injection h with h
    subst h; exact hinv
  · exact (assign_spec hne hinv h).1

/-! ## Reachable states -/

theorem step_keeps_Inv {w w' : World} (hs : Step w w') (hinv : Inv w) : Inv w' :=
  match hs with
  | Step.construct _ _ name hc => construct_Inv name hinv hc
  | Step.copy_construct _ _ _ _ _ hc h => assign_Inv (fresh_Inv hinv hc) h
  | Step.assign _ _ _ _ _ h => assign_Inv hinv h
  | Step.post _ _ r ho => post_record_Inv r hinv ho
  | Step.sync _ _ _ _ ho h => (sync_spec hinv ho h).1
  | Step.set_name _ _ _ _ _ ho h => (set_name_spec hinv ho h).1
  | Step.close _ _ _ _ h => (close_spec hinv h).1
  | Step.consumer _ n => Inv_step n hinv

theorem reachable_Inv {w : World} (hr : Reachable w) : Inv w := by
  induction hr with
  | init => exact Inv_init
  | step _ hs ih => exact step_keeps_Inv hs ih

/-! ## Frame of `close` in an arbitrary state -/

theorem wait_notified {sched : List SrcId} {w w' : World} (h : wait sched w = some w') :
    w'.notified = true :=
  (wait_induct (fun _ => True) (fun _ _ _ _ => trivial) sched w w' trivial h).2

theorem close_frame {sched : List SrcId} {s : SrcId} {w w' : World}
    (h : source.close sched s w = some w') :
    (w'.srcs s).open_ = false ∧
    (∀ i, i ≠ s → (w'.srcs i).open_ = (w.srcs i).open_) ∧
    (∀ i, (w'.srcs i).level = (w.srcs i).level) ∧
    w'.posted = w.posted ++ (if (w.srcs s).open_ = true then [(s, Command.barrier true)] else []) ∧
    (∀ i, i ≠ s → (w'.srcs i).buf <:+ (w.srcs i).buf) ∧
    ((w.srcs s).open_ = true → (w'.srcs s).buf = [] ∧ w'.notified = true) ∧
    ((w.srcs s).open_ = false → w' = w) := by
  by_cases ho : (w.srcs s).open_ = true
  · obtain ⟨w1, hsync, hw'⟩ := close_of_open ho h
    refine ⟨?_, ?_, ?_, ?_, ?_, ?_, ?_⟩
    · rw [hw', close_tail_open]; simp
    · intro i hi
      rw [hw', close_tail_open]; simp only [hi, if_false]
      rw [wait_open sched i _ w1 hsync, post_open]
    · intro i
      rw [hw', close_tail_level, wait_level sched i _ w1 hsync, post_level]
    · rw [if_pos ho]
      have h1 : w'.posted = w1.posted := by rw [hw']; rfl
      rw [h1, wait_posted sched _ w1 hsync]; rfl
    · intro i hi
      rw [hw', close_tail_buf]; simp only [hi, if_false]
      have := wait_buf_suffix sched i _ w1 hsync
      rw [post_srcs_other _ _ _ i hi] at this
      exact this
    · intro _
      refine ⟨by rw [hw', close_tail_buf]; simp, ?_⟩
      have h2 : w'.notified = w1.notified := by rw [hw']; rfl
      rw [h2]; exact wait_notified hsync
    · intro hc; rw [ho] at hc; cases hc
  · have hc : (w.srcs s).open_ = false := by simpa using ho
    rw [close_of_closed sched s w hc] at h
    injection h with h
    subst h
    refine ⟨hc, fun _ _ => rfl, fun _ => rfl, ?_, fun _ _ => List.suffix_refl _,
      fun h => absurd h ho, fun _ => rfl⟩
    rw [if_neg ho]; simp

/-! ## The wait returns when the source is registered -/

theorem wait_of_notified (sched : List SrcId) (w : World) (h : w.notified = true) :
    wait sched w = some w := by
  cases sched <;> simp [wait, h]

theorem sinksAfter_mem {s n : SrcId} {nm : String} {sinks : List (SrcId × String)}
    (cmd : Command) (h : s ∈ sinks.map Prod.fst) :
    s ∈ (sinksAfter n nm sinks cmd).map Prod.fst := by
  cases cmd with
  | record r => exact h
  | add_source t => rw [sinksAfter_keys_add]; exact List.mem_append_left _ h
  | rename nm' => simp only [sinksAfter]; rw [setName_keys]; exact h
  | barrier d => exact h

/-- When the consumer keeps servicing a registered source whose buffer holds a
barrier, the wait returns after at most as many steps as the buffer has items. -/
theorem wait_returns (s : SrcId) : ∀ (k : Nat) (w : World), w.c.destroy = false →
    s ∈ w.c.sinks.map Prod.fst → (∃ d, Command.barrier d ∈ (w.srcs s).buf) →
    (w.srcs s).buf.length ≤ k → ∃ w', wait (List.replicate k s) w = some w' := by
  intro k
  induction k with
  | zero =>
    intro w _ _ hb hlen
    obtain ⟨d, hd⟩ := hb
    have : (w.srcs s).buf = [] := List.length_eq_zero.1 (Nat.le_zero.1 hlen)
    rw [this] at hd; cases hd
  | succ k ih =>
    intro w hd hreg hb hlen
    by_cases hn : w.notified = true
    · exact ⟨w, wait_of_notified _ w hn⟩
    · rw [List.replicate_succ]
      unfold wait
      rw [if_neg hn]
      have heff := consumerStep_effect s w hd
      generalize consumerStep s w = w1 at heff
      cases heff with
      | idle h hwhy =>
        rcases hwhy with hwhy | hwhy
        · obtain ⟨nm, hnm⟩ := (nameOf_isSome_iff s _).2 hreg
          rw [hwhy] at hnm; cases hnm
        · obtain ⟨d, hd'⟩ := hb
          rw [hwhy] at hd'; cases hd'
      | release nm cmd rest hn' hbuf hc hsrcs hdestroy hsinks hnot hexec =>
        by_cases hcb : cmd = Command.barrier false
        · refine ⟨w1, wait_of_notified _ w1 ?_⟩
          rw [hnot]; simp [hcb]
        · apply ih w1 hdestroy
          · rw [hsinks]; exact sinksAfter_mem cmd hreg
          · obtain ⟨d, hd'⟩ := hb
            refine ⟨d, ?_⟩
            rw [hsrcs]; simp only [if_true]
            rw [hbuf] at hd'
            rcases List.mem_cons.1 hd' with h | h
            · cases d
              · exact absurd h.symm hcb
              · exact absurd h.symm hc
            · exact h
          · rw [hsrcs]; simp only [if_true]
            rw [hbuf] at hlen
            simpa using hlen
      | terminal nm rest hn' hbuf hsrcs hdestroy hsinks hnot hexec =>
        exact ⟨w1, wait_of_notified _ w1 hnot⟩

/-! ## Execution of a re-registration during a wait -/

/-- Across a consumer step: a re-registration of `t` queued on `s` is either still
queued with `t` unregistered, or `t` is registered under the name of `s`. -/
theorem AddState_effect {s t n' : SrcId} {n : String} {w w' : World}
    (heff : Effect n' w w') (hinv : SInv w)
    (hplain : ∀ c ∈ (w.srcs t).buf, plain c = true)
    (hname : nameOf s w.c.sinks = some n)
    (hq : (Command.add_source t ∈ (w.srcs s).buf ∧ t ∉ w.c.sinks.map Prod.fst) ∨
      nameOf t w.c.sinks = some n) :
    (Command.add_source t ∈ (w'.srcs s).buf ∧ t ∉ w'.c.sinks.map Prod.fst) ∨
      nameOf t w'.c.sinks = some n := by
  rcases hq with ⟨hin, hnk⟩ | hq
  · cases heff with
    | idle h _ => subst h; exact Or.inl ⟨hin, hnk⟩
    | release nm0 cmd rest hn hb hc hsrcs hdestroy hsinks hnot hexec =>
      have hbuf_n : (w'.srcs n').buf = rest := by rw [hsrcs]; simp
      have hbuf_o : ∀ i, i ≠ n' → (w'.srcs i).buf = (w.srcs i).buf := by
        intro i hi; rw [hsrcs]; simp [hi]
      by_cases hns : n' = s
      · subst hns
        have hnm : nm0 = n := by
          rw [hn] at hname; injection hname
        subst hnm
        by_cases hcmd : cmd = Command.add_source t
        · subst hcmd
          right
          rw [hsinks]
          simp only [sinksAfter]
          rw [nameOf_append_of_not_mem hnk]
          simp [nameOf_cons]
        · left
          rw [hb] at hin
          rcases List.mem_cons.1 hin with h | h
          · exact absurd h.symm hcmd
          · refine ⟨by rw [hbuf_n]; exact h, ?_⟩
            rw [hsinks]
            cases cmd with
            | record r => exact hnk
            | add_source u =>
              rw [sinksAfter_keys_add, List.mem_append, List.mem_singleton]
              rintro (h1 | h1)
              · exact hnk h1
              · subst h1; exact hcmd rfl
            | rename nm' => simp only [sinksAfter]; rw [setName_keys]; exact hnk
            | barrier d => exact hnk
      · left
        refine ⟨by rw [hbuf_o s (fun h => hns h.symm)]; exact hin, ?_⟩
        rw [hsinks]
        cases cmd with
        | record r => exact hnk
        | add_source u =>
          rw [sinksAfter_keys_add, List.mem_append, List.mem_singleton]
          rintro (h1 | h1)
          · exact hnk h1
          · subst h1
            exact hns (hinv.add_unique n' s t (by rw [hb]; exact List.mem_cons_self _ _) hin)
        | rename nm' => simp only [sinksAfter]; rw [setName_keys]; exact hnk
        | barrier d => exact hnk
    | terminal nm0 rest hn hb hsrcs hdestroy hsinks hnot hexec =>
      left
      refine ⟨by rw [hsrcs]; exact hin, ?_⟩
      rw [hsinks, eraseSink_keys]
      exact fun h => hnk (List.mem_of_mem_erase h)
  · exact Or.inr (name_stable_effect heff (fun c hc => Or.inl (hplain c hc)) hq)

/-- A non-destroying `sync` on `s` executes a re-registration of `t` queued on `s`:
when it returns, `t` is registered with the name of `s`. -/
theorem sync_registers {s t : SrcId} {n : String} {sched : List SrcId} {w w' : World}
    (hts : t ≠ s) (hinv : Inv w) (hopen : (w.srcs s).open_ = true)
    (hname : nameOf s w.c.sinks = some n)
    (hadd : Command.add_source t ∈ (w.srcs s).buf)
    (h : source.sync sched s false w = some w') : nameOf t w'.c.sinks = some n := by
  have hw0 := sync_start false hinv.sinv (fun o _ c hc => hinv.quiet o c hc)
    (fun c hc => plain_not_barrier (hinv.quiet s c hc)) hopen
  have hres := wait_track
    (fun u => (∀ c ∈ (u.srcs s).buf, plain c = true ∨ c = Command.barrier false) ∧
      nameOf s u.c.sinks = some n ∧
      ((Command.add_source t ∈ (u.srcs s).buf ∧ t ∉ u.c.sinks.map Prod.fst) ∨
        nameOf t u.c.sinks = some n))
    (fun m u hu _ hq =>
      have heff := consumerStep_effect m u hu.inv.destroy_clear
      ⟨calm_step _ m u hq.1, name_stable_effect heff hq.1 hq.2.1,
        AddState_effect heff hu.inv (hu.others t hts) hq.2.1 hq.2.2⟩)
    sched _ w' hw0
    ⟨fun c hc => by
        rcases post_mem hc with hc | ⟨_, hc⟩
        · exact Or.inl (hinv.quiet s c hc)
        · exact Or.inr hc,
      hname, Or.inl ⟨mem_post hadd, (hinv.sinv.add_fresh s t hadd).2⟩⟩ h
  rcases hres.2.1.2.2 with ⟨hin, _⟩ | hdone
  · rw [(hres.1.done hres.2.2).2.1] at hin
    simp at hin
  · exact hdone

/-! ## Counting registrations, posting a sequence of records -/

theorem regCount_eq_one {w : World} (hinv : Inv w) {s : SrcId}
    (h : s ∈ w.c.sinks.map Prod.fst) : regCount w s = 1 :=
  List.count_eq_one_of_mem hinv.sinv.nodup h

theorem regCount_eq_zero {w : World} {s : SrcId}
    (h : s ∉ w.c.sinks.map Prod.fst) : regCount w s = 0 :=
  List.count_eq_zero.2 h

/-- Under the invariant a consumer step moves the oldest item of a queue from the
buffer to the executed log: their concatenation is unchanged. -/
theorem fifo_step (n s : SrcId) {w : World} (hinv : Inv w) :
    executedBy s (consumerStep n w) ++ ((consumerStep n w).srcs s).buf
      = executedBy s w ++ (w.srcs s).buf := by
  have heff := consumerStep_effect n w hinv.sinv.destroy_clear
  generalize consumerStep n w = w1 at heff
  cases heff with
  | idle h _ => subst h; rfl
  | release nm cmd rest hn hb hc hsrcs hdestroy hsinks hnot hexec =>
    rw [executedBy_snoc hexec, hsrcs]
    by_cases hns : n = s
    · subst hns; simp [hb]
    · have : ¬ s = n := fun h => hns h.symm
      simp [hns, this]
  | terminal nm rest hn hb hsrcs hdestroy hsinks hnot hexec =>
    have := hinv.quiet n (Command.barrier true) (by rw [hb]; exact List.mem_cons_self _ _)
    simp [plain] at this

/-- Under the invariant no consumer step removes a registration. -/
theorem keys_step (n x : SrcId) {w : World} (hinv : Inv w)
    (hx : x ∈ w.c.sinks.map Prod.fst) : x ∈ (consumerStep n w).c.sinks.map Prod.fst := by
  have heff := consumerStep_effect n w hinv.sinv.destroy_clear
  generalize consumerStep n w = w1 at heff
  cases heff with
  | idle h _ => subst h; exact hx
  | release nm cmd rest hn hb hc hsrcs hdestroy hsinks hnot hexec =>
    rw [hsinks]; exact sinksAfter_mem cmd hx
  | terminal nm rest hn hb hsrcs hdestroy hsinks hnot hexec =>
    have := hinv.quiet n (Command.barrier true) (by rw [hb]; exact List.mem_cons_self _ _)
    simp [plain] at this

/-- A property kept by every consumer step from a state satisfying the invariant
is kept by a background run of the consumer. -/
theorem run_track (P : World → Prop)
    (hP : ∀ n w, Inv w → P w → P (consumerStep n w)) :
    ∀ (sched : List SrcId) (w : World), Inv w → P w →
      Inv (consumerRun sched w) ∧ P (consumerRun sched w) := by
  intro sched
  induction sched with
  | nil => intro w hinv hp; exact ⟨hinv, hp⟩
  | cons n rest ih => intro w hinv hp; exact ih _ (Inv_step n hinv) (hP n w hinv hp)

theorem run_facts (s : SrcId) (sched : List SrcId) (w : World) (hinv : Inv w) :
    Inv (consumerRun sched w) ∧
    ((consumerRun sched w).srcs s).open_ = (w.srcs s).open_ ∧
    (consumerRun sched w).posted = w.posted ∧
    executedBy s (consumerRun sched w) ++ ((consumerRun sched w).srcs s).buf
      = executedBy s w ++ (w.srcs s).buf ∧
    (s ∈ w.c.sinks.map Prod.fst → s ∈ (consumerRun sched w).c.sinks.map Prod.fst) := by
  have := run_track
    (fun v => (v.srcs s).open_ = (w.srcs s).open_ ∧ v.posted = w.posted ∧
      executedBy s v ++ (v.srcs s).buf = executedBy s w ++ (w.srcs s).buf ∧
      (s ∈ w.c.sinks.map Prod.fst → s ∈ v.c.sinks.map Prod.fst))
    (fun n v hv hp => ⟨(consumerStep_open n s v).trans hp.1,
      (consumerStep_posted n v).trans hp.2.1, (fifo_step n s hv).trans hp.2.2.1,
      fun h => keys_step n s hv (hp.2.2.2 h)⟩)
    sched w hinv ⟨rfl, rfl, rfl, fun h => h⟩
  exact ⟨this.1, this.2.1, this.2.2.1, this.2.2.2.1, this.2.2.2.2⟩

theorem postAll_facts (s : SrcId) : ∀ (items : List (Nat × List SrcId)) (w : World),
    Inv w → (w.srcs s).open_ = true →
    Inv (postAll s items w) ∧ ((postAll s items w).srcs s).open_ = true ∧
    (postAll s items w).posted
      = w.posted ++ items.map (fun i => (s, Command.record i.1)) ∧
    executedBy s (postAll s items w) ++ ((postAll s items w).srcs s).buf
      = executedBy s w ++ (w.srcs s).buf ++ items.map (fun i => Command.record i.1) ∧
    (s ∈ w.c.sinks.map Prod.fst → s ∈ (postAll s items w).c.sinks.map Prod.fst) := by
  intro items
  induction items with
  | nil => intro w hinv ho; simp [postAll, hinv, ho]
  | cons i rest ih =>
    intro w hinv ho
    obtain ⟨r, bg⟩ := i
    have hinv1 := post_record_Inv r hinv ho
    obtain ⟨g1, g2, g3, g4, g5⟩ := run_facts s bg (post s (Command.record r) w) hinv1
    have ho2 : ((consumerRun bg (post s (Command.record r) w)).srcs s).open_ = true := by
      rw [g2, post_open]; exact ho
    obtain ⟨h1, h2, h3, h4, h5⟩ := ih _ g1 ho2
    refine ⟨h1, h2, ?_, ?_, fun h => h5 (g5 h)⟩
    · rw [postAll, h3, g3]; simp [post]
    · rw [postAll, h4, g4, post_buf_self]
      have : executedBy s (post s (Command.record r) w) = executedBy s w := rfl
      rw [this]; simp

/-! ## The wait returns from every reachable state -/

theorem RankedBy_mono {ρ : SrcId → Nat} {w w' : World}
    (h : ∀ o t, Command.add_source t ∈ (w'.srcs o).buf → Command.add_source t ∈ (w.srcs o).buf)
    (hr : RankedBy ρ w) : RankedBy ρ w' :=
  fun o t ht => hr o t (h o t ht)

theorem RankedBy_step {ρ : SrcId → Nat} (n : SrcId) {w : World} (hr : RankedBy ρ w) :
    RankedBy ρ (consumerStep n w) :=
  RankedBy_mono (fun o _ ht => (consumerStep_buf_suffix n o w).subset ht) hr

theorem consumerRun_append (a b : List SrcId) (w : World) :
    consumerRun (a ++ b) w = consumerRun b (consumerRun a w) := by
  induction a generalizing w with
  | nil => rfl
  | cons n rest ih => exact ih (consumerStep n w)

theorem consumerStep_notified_mono (n : SrcId) (w : World) (h : w.notified = true) :
    (consumerStep n w).notified = true := by
  unfold consumerStep
  split
  · next nm cmd rest hn hb =>
    cases cmd with
    | record r => dsimp only [exec, Frame.process]; split <;> exact h
    | add_source t => dsimp only [exec, add_source_lambda, Frame.add_source]; split <;> exact h
    | rename nm' => dsimp only [exec, set_name_lambda]; split <;> exact h
    | barrier d =>
      dsimp only [exec, sync_lambda, Frame.set_destroy, Frame.flush, Frame.sync, Frame.lock,
        Frame.set_notified, Frame.notify_one, Frame.unlock]
      split <;> rfl
  · exact h

theorem consumerRun_notified_mono (sched : List SrcId) (w : World) (h : w.notified = true) :
    (consumerRun sched w).notified = true := by
  induction sched generalizing w with
  | nil => exact h
  | cons n rest ih => exact ih _ (consumerStep_notified_mono n w h)

theorem wait_cons_of_clear (n : SrcId) (rest : List SrcId) (w : World)
    (h : w.notified = false) : wait (n :: rest) w = wait rest (consumerStep n w) := by
  rw [wait, if_neg (by rw [h]; simp)]

/-- While the flag stays clear the wait just follows the schedule. -/
theorem wait_append (a b : List SrcId) (w : World)
    (h : (consumerRun a w).notified = false) :
    wait (a ++ b) w = wait b (consumerRun a w) := by
  induction a generalizing w with
  | nil => rfl
  | cons n rest ih =>
    have hw : w.notified = false := by
      cases hn : w.notified with
      | false => rfl
      | true =>
        have := consumerRun_notified_mono (n :: rest) w hn
        rw [h] at this; cases this
    rw [List.cons_append, wait_cons_of_clear n _ w hw]
    exact ih (consumerStep n w) h

/-- A step that leaves the flag clear released one item or did nothing; the state
of the wait is kept. -/
theorem Live_step {ρ : SrcId → Nat} {s : SrcId} {d : Bool} {L : List Command} (n : SrcId)
    {w : World} (hl : Live ρ s d L w) (hn : (consumerStep n w).notified = false) :
    Live ρ s d L (consumerStep n w) := by
  refine ⟨Waiting_step n w hl.waiting hl.notyet, hn, RankedBy_step n hl.ranked, ?_⟩
  have hinv := hl.waiting.inv
  have heff := consumerStep_effect n w hinv.destroy_clear
  generalize consumerStep n w = w1 at heff hn
  cases heff with
  | idle h _ => subst h; exact hl.served
  | release nm cmd rest hn' hb hc hsrcs hdestroy hsinks hnot hexec =>
    intro x hx
    have hopen : (w1.srcs x).open_ = (w.srcs x).open_ := by
      rw [hsrcs]; dsimp only
      split
      · next h => subst h; rfl
      · rfl
    rw [hopen] at hx
    rcases hl.served x hx with h | ⟨o, h⟩
    · exact Or.inl (by rw [hsinks]; exact sinksAfter_mem cmd h)
    · by_cases hcase : o = n ∧ cmd = Command.add_source x
      · obtain ⟨_, hcmd⟩ := hcase
        subst hcmd
        left
        rw [hsinks, sinksAfter_keys_add]
        exact List.mem_append_right _ (List.mem_singleton_self x)
      · right
        refine ⟨o, ?_⟩
        rw [hsrcs]
        by_cases ho : o = n
        · subst ho
          simp only [if_true]
          rw [hb] at h
          rcases List.mem_cons.1 h with h | h
          · exact absurd ⟨rfl, h.symm⟩ hcase
          · exact h
        · simp only [ho, if_false]; exact h
  | terminal nm rest hn' hb hsrcs hdestroy hsinks hnot hexec =>
    rw [hnot] at hn; cases hn

/-- In the state of a wait an item that is not the last of its buffer is not a
barrier. -/
theorem Live_head {ρ : SrcId → Nat} {s : SrcId} {d : Bool} {L : List Command} {w : World}
    (hl : Live ρ s d L w) {o : SrcId} {c : Command} {rest : List Command}
    (hb : (w.srcs o).buf = c :: rest) (hrest : rest ≠ []) : isBarrier c = false := by
  by_cases ho : o = s
  · subst ho
    obtain ⟨pre, hpre, hnb, _⟩ := hl.waiting.pending hl.notyet
    rw [hb] at hpre
    cases pre with
    | nil =>
      simp only [List.nil_append, List.cons.injEq] at hpre
      exact absurd hpre.2 hrest
    | cons c' pre' =>
      simp only [List.cons_append, List.cons.injEq] at hpre
      rw [hpre.1]; exact hnb c' (List.mem_cons_self _ _)
  · exact plain_not_barrier (hl.waiting.others o ho c (by rw [hb]; exact List.mem_cons_self _ _))

theorem Keeps_refl (w : World) : Keeps w w := fun _ _ h => h

theorem Keeps_trans {a b c : World} (h1 : Keeps a b) (h2 : Keeps b c) : Keeps a c :=
  fun o x h => h2 o x (h1 o x h)

theorem Keeps_step {ρ : SrcId → Nat} {s : SrcId} {d : Bool} {L : List Command} (n : SrcId)
    {w : World} (hl : Live ρ s d L w) (hn : (consumerStep n w).notified = false) :
    Keeps w (consumerStep n w) := by
  have heff := consumerStep_effect n w hl.waiting.inv.destroy_clear
  generalize consumerStep n w = w1 at heff hn
  cases heff with
  | idle h _ => subst h; exact Keeps_refl _
  | release nm cmd rest hn' hb hc hsrcs hdestroy hsinks hnot hexec =>
    intro o x h
    rcases h with h | h
    · by_cases hcase : o = n ∧ cmd = Command.add_source x
      · obtain ⟨_, hcmd⟩ := hcase
        subst hcmd
        right
        rw [hsinks, sinksAfter_keys_add]
        exact List.mem_append_right _ (List.mem_singleton_self x)
      · left
        rw [hsrcs]
        by_cases ho : o = n
        · subst ho
          simp only [if_true]
          rw [hb] at h
          rcases List.mem_cons.1 h with h | h
          · exact absurd ⟨rfl, h.symm⟩ hcase
          · exact h
        · simp only [ho, if_false]; exact h
    · exact Or.inr (by rw [hsinks]; exact sinksAfter_mem cmd h)
  | terminal nm rest hn' hb hsrcs hdestroy hsinks hnot hexec =>
    rw [hnot] at hn; cases hn

/-- Servicing a registered source whose buffer holds a re-registration of `x`
registers `x`. -/
theorem Live_drain {ρ : SrcId → Nat} {s : SrcId} {d : Bool} {L : List Command}
    (o x : SrcId) : ∀ (front back : List Command) (w : World), Live ρ s d L w →
    o ∈ w.c.sinks.map Prod.fst →
    (w.srcs o).buf = front ++ Command.add_source x :: back →
    ∃ sched, Live ρ s d L (consumerRun sched w) ∧
      x ∈ (consumerRun sched w).c.sinks.map Prod.fst ∧ Keeps w (consumerRun sched w) := by
  intro front
  induction front with
  | nil =>
    intro back w hl ho hb
    rw [List.nil_append] at hb
    have heff := consumerStep_effect o w hl.waiting.inv.destroy_clear
    have hlive := fun h => Live_step o hl h
    have hkeep := fun h => Keeps_step o hl h
    refine ⟨[o], ?_⟩
    show Live ρ s d L (consumerStep o w) ∧ x ∈ (consumerStep o w).c.sinks.map Prod.fst ∧
      Keeps w (consumerStep o w)
    generalize consumerStep o w = w1 at heff hlive hkeep
    cases heff with
    | idle h hwhy =>
      rcases hwhy with hwhy | hwhy
      · obtain ⟨nm, hnm⟩ := (nameOf_isSome_iff o _).2 ho
        rw [hwhy] at hnm; cases hnm
      · rw [hwhy] at hb; cases hb
    | release nm cmd rest hn hb' hc hsrcs hdestroy hsinks hnot hexec =>
      rw [hb] at hb'
      injection hb' with hcmd hrest
      subst hcmd
      have hn1 : w1.notified = false := by rw [hnot, hl.notyet]; simp
      refine ⟨hlive hn1, ?_, hkeep hn1⟩
      rw [hsinks, sinksAfter_keys_add]
      exact List.mem_append_right _ (List.mem_singleton_self x)
    | terminal nm rest hn hb' hsrcs hdestroy hsinks hnot hexec =>
      rw [hb] at hb'
      injection hb' with hcmd _
      cases hcmd
  | cons c f ih =>
    intro back w hl ho hb
    rw [List.cons_append] at hb
    have hcb : isBarrier c = false := Live_head hl hb (by simp)
    have heff := consumerStep_effect o w hl.waiting.inv.destroy_clear
    have hlive := fun h => Live_step o hl h
    have hkeep := fun h => Keeps_step o hl h
    have hgoal : ∃ sched, Live ρ s d L (consumerRun sched (consumerStep o w)) ∧
        x ∈ (consumerRun sched (consumerStep o w)).c.sinks.map Prod.fst ∧
        Keeps w (consumerRun sched (consumerStep o w)) := by
      generalize consumerStep o w = w1 at heff hlive hkeep
      cases heff with
      | idle h hwhy =>
        rcases hwhy with hwhy | hwhy
        · obtain ⟨nm, hnm⟩ := (nameOf_isSome_iff o _).2 ho
          rw [hwhy] at hnm; cases hnm
        · rw [hwhy] at hb; cases hb
      | release nm cmd rest hn hb' hc hsrcs hdestroy hsinks hnot hexec =>
        rw [hb] at hb'
        injection hb' with hcmd hrest
        subst hcmd hrest
        have hn1 : w1.notified = false := by
          rw [hnot, hl.notyet]
          cases c <;> simp_all [isBarrier]
        obtain ⟨sched, g1, g2, g3⟩ := ih back w1 (hlive hn1)
          (by rw [hsinks]; exact sinksAfter_mem c ho) (by rw [hsrcs]; simp)
        exact ⟨sched, g1, g2, Keeps_trans (hkeep hn1) g3⟩
      | terminal nm rest hn hb' hsrcs hdestroy hsinks hnot hexec =>
        rw [hb] at hb'
        injection hb' with hcmd _
        subst hcmd
        simp [isBarrier] at hcb
    obtain ⟨sched, h1, h2, h3⟩ := hgoal
    exact ⟨o :: sched, h1, h2, h3⟩

/-- Every open source can be brought to registration: by induction on its rank, the
source holding its re-registration is registered first and then drained. -/
theorem Live_register {ρ : SrcId → Nat} {s : SrcId} {d : Bool} {L : List Command} :
    ∀ (k : Nat) (x : SrcId) (w : World), Live ρ s d L w → ρ x ≤ k →
    (w.srcs x).open_ = true →
    ∃ sched, Live ρ s d L (consumerRun sched w) ∧
      x ∈ (consumerRun sched w).c.sinks.map Prod.fst ∧ Keeps w (consumerRun sched w) := by
  intro k
  induction k with
  | zero =>
    intro x w hl hk hx
    rcases hl.served x hx with h | ⟨o, h⟩
    · exact ⟨[], hl, h, Keeps_refl w⟩
    · have := hl.ranked o x h
      omega
  | succ k ih =>
    intro x w hl hk hx
    rcases hl.served x hx with h | ⟨o, h⟩
    · exact ⟨[], hl, h, Keeps_refl w⟩
    · have hrank := hl.ranked o x h
      have ho : (w.srcs o).open_ = true := by
        cases hopen : (w.srcs o).open_ with
        | true => rfl
        | false =>
          rw [hl.waiting.inv.closed_empty o hopen] at h
          cases h
      obtain ⟨s1, hl1, ho1, hk1⟩ := ih o w hl (by omega) ho
      rcases hk1 o x (Or.inl h) with h1 | h1
      · obtain ⟨front, back, hb⟩ := List.append_of_mem h1
        obtain ⟨s2, hl2, hx2, hk2⟩ := Live_drain o x front back _ hl1 ho1 hb
        refine ⟨s1 ++ s2, ?_⟩
        rw [consumerRun_append]
        exact ⟨hl2, hx2, Keeps_trans hk1 hk2⟩
      · exact ⟨s1, hl1, h1, hk1⟩

/-- The wait of `sync(d)` on an open source returns under a suitable schedule of the
consumer, when every open source is registered or awaits its re-registration and
the pending re-registrations form no cycle. -/
theorem sync_returns_live {ρ : SrcId → Nat} {s : SrcId} (d : Bool) {w : World}
    (hinv : SInv w)
    (hothers : ∀ o, o ≠ s → ∀ c ∈ (w.srcs o).buf, plain c = true)
    (hself : ∀ c ∈ (w.srcs s).buf, isBarrier c = false)
    (hopen : (w.srcs s).open_ = true) (hrank : RankedBy ρ w) (hserved : Served w) :
    ∃ sched w', source.sync sched s d w = some w' := by
  have hw0 := sync_start d hinv hothers hself hopen
  have hl0 : Live ρ s d (executedBy s w ++ (w.srcs s).buf ++ [Command.barrier d])
      (post s (Command.barrier d) { w with locked := false, notified := false }) := by
    refine ⟨hw0, rfl, ?_, ?_⟩
    · intro o t ht
      rcases post_mem ht with h | ⟨_, h⟩
      · exact hrank o t h
      · cases h
    · intro x hx
      rw [post_open] at hx
      rcases hserved x hx with h | ⟨o, h⟩
      · exact Or.inl h
      · exact Or.inr ⟨o, mem_post h⟩
  have hopen0 : ((post s (Command.barrier d)
      { w with locked := false, notified := false }).srcs s).open_ = true := by
    rw [post_open]; exact hopen
  obtain ⟨s1, hl1, hs1, _⟩ := Live_register (ρ s) s _ hl0 (Nat.le_refl _) hopen0
  obtain ⟨pre, hpre, _, _⟩ := hl1.waiting.pending hl1.notyet
  obtain ⟨w', hw'⟩ := wait_returns s (pre.length + 1) _ hl1.waiting.inv.destroy_clear hs1
    ⟨d, by rw [hpre]; simp⟩ (by rw [hpre]; simp)
  refine ⟨s1 ++ List.replicate (pre.length + 1) s, w', ?_⟩
  show wait _ _ = some w'
  rw [wait_append _ _ _ hl1.notyet]
  exact hw'

/-! ## Reachable states have no cycle of pending re-registrations -/

theorem close_RankedBy {ρ : SrcId → Nat} {sched : List SrcId} {s : SrcId} {w w' : World}
    (h : source.close sched s w = some w') (hr : RankedBy ρ w) : RankedBy ρ w' := by
  obtain ⟨_, _, _, _, h5, h6, h7⟩ := close_frame h
  by_cases ho : (w.srcs s).open_ = true
  · refine RankedBy_mono ?_ hr
    intro o t ht
    by_cases hos : o = s
    · subst hos; rw [(h6 ho).1] at ht; cases ht
    · exact (h5 o hos).subset ht
  · rw [h7 (by simpa using ho)]; exact hr

theorem sync_RankedBy {ρ : SrcId → Nat} {sched : List SrcId} {s : SrcId} {d : Bool}
    {w w' : World} (h : source.sync sched s d w = some w') (hr : RankedBy ρ w) :
    RankedBy ρ w' := by
  refine RankedBy_mono ?_ hr
  intro o t ht
  have h1 := (wait_buf_suffix sched o _ w' h).subset ht
  rcases post_mem h1 with h2 | ⟨_, h2⟩
  · exact h2
  · cases h2

theorem assign_Ranked {sched : List SrcId} {self other : SrcId} {w w' : World}
    (hinv : Inv w) (hr : Ranked w)
    (h : source.operator_assign sched self other w = some w') : Ranked w' := by
  by_cases hne : self = other
  · unfold source.operator_assign at h
    rw [if_pos hne] at h
    injection h with h
    subst h; exact hr
  · obtain ⟨ρ, hρ⟩ := hr
    obtain ⟨w1, hclose, hw'⟩ := assign_unfold hne h
    obtain ⟨hinv1, hcl1, _, _, _, _⟩ := close_spec hinv hclose
    have hρ1 := close_RankedBy hclose hρ
    obtain ⟨_, hadd, hempty⟩ := hinv1.sinv.closed_facts hcl1
    by_cases ho : (w1.srcs other).open_ = true
    · rw [if_pos ho] at hw'
      have hbuf : ∀ i, (w'.srcs i).buf =
          if i = other then (w1.srcs i).buf ++ [Command.add_source self]
          else (w1.srcs i).buf := by
        intro i
        rw [hw']
        by_cases h1 : i = self
        · subst h1; simp [World.setSrc, hne]
        · by_cases h2 : i = other
          · subst h2; simp [World.setSrc, post, h1]
          · simp [World.setSrc, post, h1, h2]
      refine ⟨fun i => if i = self then ρ other + 1 else ρ i, ?_⟩
      intro o t ht
      rw [hbuf] at ht
      have hos : ¬ other = self := fun h => hne h.symm
      by_cases h2 : o = other
      · subst h2
        simp only [if_true, List.mem_append, List.mem_singleton] at ht
        rcases ht with ht | ht
        · have hts : t ≠ self := fun h => hadd o (h ▸ ht)
          simp only [hos, hts, if_false]
          exact hρ1 o t ht
        · injection ht with ht
          subst ht
          simp [hos]
      · simp only [h2, if_false] at ht
        have hts : t ≠ self := fun h => hadd o (h ▸ ht)
        have hoself : o ≠ self := by
          intro h; subst h; rw [hempty] at ht; cases ht
        simp only [hoself, hts, if_false]
        exact hρ1 o t ht
    · rw [if_neg ho] at hw'
      refine ⟨ρ, RankedBy_mono ?_ hρ1⟩
      intro o t ht
      rw [hw'] at ht
      by_cases h1 : o = self
      · subst h1; simpa [World.setSrc] using ht
      · simpa [World.setSrc, h1] using ht

theorem step_keeps_Ranked {w w' : World} (hs : Step w w') (hinv : Inv w) (hr : Ranked w) :
    Ranked w' :=
  match hs with
  | Step.construct _ s name hc => by
    obtain ⟨ρ, hρ⟩ := hr
    refine ⟨ρ, RankedBy_mono ?_ hρ⟩
    intro o t ht
    by_cases h1 : o = s
    · subst h1
      simp [source.construct, register_source, World.setSrc, Source.fresh] at ht
    · simpa [source.construct, register_source, World.setSrc, h1] using ht
  | Step.copy_construct _ _ _ self _ hc h => by
    refine assign_Ranked (fresh_Inv hinv hc) ?_ h
    obtain ⟨ρ, hρ⟩ := hr
    refine ⟨ρ, RankedBy_mono ?_ hρ⟩
    intro o t ht
    by_cases h1 : o = self
    · subst h1
      simp [World.setSrc, Source.fresh] at ht
    · simpa [World.setSrc, h1] using ht
  | Step.assign _ _ _ _ _ h => assign_Ranked hinv hr h
  | Step.post _ s r _ => by
    obtain ⟨ρ, hρ⟩ := hr
    refine ⟨ρ, RankedBy_mono ?_ hρ⟩
    intro o t ht
    rcases post_mem ht with h2 | ⟨_, h2⟩
    · exact h2
    · cases h2
  | Step.sync _ _ _ _ _ h => by
    obtain ⟨ρ, hρ⟩ := hr
    exact ⟨ρ, sync_RankedBy h hρ⟩
  | Step.set_name _ _ _ s name _ h => by
    obtain ⟨ρ, hρ⟩ := hr
    refine ⟨ρ, sync_RankedBy h (RankedBy_mono ?_ hρ)⟩
    intro o t ht
    rcases post_mem ht with h2 | ⟨_, h2⟩
    · exact h2
    · cases h2
  | Step.close _ _ _ _ h => by
    obtain ⟨ρ, hρ⟩ := hr
    exact ⟨ρ, close_RankedBy h hρ⟩
  | Step.consumer _ n => by
    obtain ⟨ρ, hρ⟩ := hr
    exact ⟨ρ, RankedBy_step n hρ⟩

theorem reachable_Ranked {w : World} (hr : Reachable w) : Ranked w := by
  induction hr with
  | init =>
    refine ⟨fun _ => 0, ?_⟩
    intro o t ht
    simp [World.init, Source.fresh] at ht
  | step hr' hs ih => exact step_keeps_Ranked hs (reachable_Inv hr') ih

theorem reachable_run (sched : List SrcId) : ∀ {w : World}, Reachable w →
    Reachable (consumerRun sched w) := by
  induction sched with
  | nil => intro w h; exact h
  | cons n rest ih => intro w h; exact ih (Reachable.step h (Step.consumer w n))

theorem Inv_served {w : World} (hinv : Inv w) : Served w :=
  fun _ hx => hinv.open_cases hx

/-- From a reachable state `sync` on an open source returns under a suitable
schedule of the consumer. -/
theorem sync_returns_reach (s : SrcId) (d : Bool) {w : World} (hr : Reachable w)
    (hopen : (w.srcs s).open_ = true) : ∃ sched w', source.sync sched s d w = some w' := by
  have hinv := reachable_Inv hr
  obtain ⟨ρ, hρ⟩ := reachable_Ranked hr
  exact sync_returns_live d hinv.sinv (fun o _ c hc => hinv.quiet o c hc)
    (fun c hc => plain_not_barrier (hinv.quiet s c hc)) hopen hρ (Inv_served hinv)

theorem close_returns_reach (s : SrcId) {w : World} (hr : Reachable w) :
    ∃ sched w', source.close sched s w = some w' := by
  by_cases ho : (w.srcs s).open_ = true
  · obtain ⟨sched, w1, h1⟩ := sync_returns_reach s true hr ho
    refine ⟨sched, clear s (w1.setSrc s { w1.srcs s with open_ := false }), ?_⟩
    unfold source.close
    rw [if_pos ho, h1]
  · exact ⟨[], w, close_of_closed [] s w (by simpa using ho)⟩

theorem set_name_returns_reach (s : SrcId) (name : String) {w : World} (hr : Reachable w)
    (hopen : (w.srcs s).open_ = true) :
    ∃ sched w', source.set_name sched s name w = some w' := by
  have hinv := reachable_Inv hr
  obtain ⟨ρ, hρ⟩ := reachable_Ranked hr
  have hρ1 : RankedBy ρ (post s (Command.rename name) w) := by
    intro o t ht
    rcases post_mem ht with h2 | ⟨_, h2⟩
    · exact hρ o t h2
    · cases h2
  have hserved : Served (post s (Command.rename name) w) := by
    intro x hx
    rw [post_open] at hx
    rcases hinv.open_cases hx with h | ⟨o, h⟩
    · exact Or.inl h
    · exact Or.inr ⟨o, mem_post h⟩
  exact sync_returns_live false
    (SInv_post hinv.sinv hopen (by intro t ht; cases ht))
    (fun o ho c hc => by
      rw [post_srcs_other _ _ _ o ho] at hc; exact hinv.quiet o c hc)
    (fun c hc => by
      rcases post_mem hc with hc | ⟨_, hc⟩
      · exact plain_not_barrier (hinv.quiet s c hc)
      · subst hc; rfl)
    (by rw [post_open]; exact hopen) hρ1 hserved

theorem assign_returns_reach (self other : SrcId) {w : World} (hr : Reachable w) :
    ∃ sched w', source.operator_assign sched self other w = some w' := by
  obtain ⟨sched, w1, h1⟩ := close_returns_reach self hr
  refine ⟨sched, ?_⟩
  unfold source.operator_assign
  by_cases hne : self = other
  · rw [if_pos hne]; exact ⟨w, rfl⟩
  · rw [if_neg hne, h1]
    dsimp only
    split
    · exact ⟨_, rfl⟩
    · exact ⟨_, rfl⟩

theorem reachable_postAll (s : SrcId) : ∀ (items : List (Nat × List SrcId)) (w : World),
    Reachable w → (w.srcs s).open_ = true → Reachable (postAll s items w) := by
  intro items
  induction items with
  | nil => intro w hr _; exact hr
  | cons i rest ih =>
    intro w hr ho
    obtain ⟨r, bg⟩ := i
    have hr1 : Reachable (consumerRun bg (post s (Command.record r) w)) :=
      reachable_run bg (Reachable.step hr (Step.post w s r ho))
    refine ih _ hr1 ?_
    rw [(run_facts s bg _ (post_record_Inv r (reachable_Inv hr) ho)).2.1, post_open]
    exact ho

/-! ## Example states -/

theorem oneSource_Inv : Inv oneSource :=
  construct_Inv "a" Inv_init rfl

theorem oneSourceBusy_Inv : Inv oneSourceBusy :=
  post_record_Inv 7 oneSource_Inv rfl

/-! ## Facts about the example states -/

theorem twoSources_Inv : Inv twoSources :=
  construct_Inv "b" oneSourceBusy_Inv rfl

theorem copiedSource_eq : source.copy_construct [] 1 0 oneSource = some copiedSource := rfl

theorem copiedSource_reachable : Reachable copiedSource :=
  Reachable.step
    (Reachable.step Reachable.init (Step.construct World.init 0 "a" rfl))
    (Step.copy_construct oneSource copiedSource [] 1 0 rfl copiedSource_eq)

/-! ## The claims -/

/-- C1. For a source `s` with `open_ == true`, every call of `close()` that returns
has run `sync(destroy = true)` on the buffer of `s` and then cleared it: exactly
one command was posted, the barrier with the destroy flag set, on the buffer of
`s`; on return `is_open()` is false, the ring buffer of `s` is empty and the
rendezvous flag has been set. From a state satisfying the invariant of reachable
states the consumer executed the whole queue of `s` and then the barrier, and
the registration is gone. In every reachable state the call does return under
a suitable schedule of the consumer. -/
theorem close_open_runs_terminal_barrier (s : SrcId) (w : World)
    (hopen : (w.srcs s).open_ = true) :
    (∀ sched w', source.close sched s w = some w' →
      (∃ w1, source.sync sched s true w = some w1 ∧
        w' = clear s (w1.setSrc s { w1.srcs s with open_ := false })) ∧
      w'.posted = w.posted ++ [(s, Command.barrier true)] ∧
      source.is_open s w' = false ∧ (w'.srcs s).buf = [] ∧ w'.notified = true ∧
      (Inv w →
        executedBy s w' = executedBy s w ++ (w.srcs s).buf ++ [Command.barrier true] ∧
        ¬ registered w' s)) ∧
    (Reachable w → ∃ sched w', source.close sched s w = some w') := by
  refine ⟨?_, fun hr => close_returns_reach s hr⟩
  intro sched w' h
  obtain ⟨h1, _, _, h4, _, h6, _⟩ := close_frame h
  refine ⟨close_of_open hopen h, by rw [h4, if_pos hopen], h1, (h6 hopen).1, (h6 hopen).2, ?_⟩
  intro hinv
  obtain ⟨hinv', hcl, _, _, _, hex⟩ := close_spec hinv h
  exact ⟨(hex hopen).1, (hinv'.sinv.closed_facts hcl).1⟩

theorem close_open_runs_terminal_barrier_witness :
    (oneSourceBusy.srcs 0).open_ = true ∧
    ∃ w', source.close [0, 0] 0 oneSourceBusy = some w' ∧
      w'.posted = oneSourceBusy.posted ++ [(0, Command.barrier true)] ∧
      source.is_open 0 w' = false ∧ (w'.srcs 0).buf = [] ∧
      executedBy 0 w' = [Command.record 7, Command.barrier true] :=
  ⟨rfl, _, rfl,
    ((close_open_runs_terminal_barrier 0 oneSourceBusy rfl).1 [0, 0] _ rfl).2.1,
    ((close_open_runs_terminal_barrier 0 oneSourceBusy rfl).1 [0, 0] _ rfl).2.2.1,
    ((close_open_runs_terminal_barrier 0 oneSourceBusy rfl).1 [0, 0] _ rfl).2.2.2.1,
    (((close_open_runs_terminal_barrier 0 oneSourceBusy rfl).1 [0, 0] _ rfl).2.2.2.2.2
      oneSourceBusy_Inv).1⟩

/-- C2. For distinct sources `self` and `other` with `other.open_ == true`, every
copy assignment `self = other` that returns posted exactly one re-registration
command `add_source(self)`, as the last command and on the buffer of `other`:
it sits at the tail of that buffer behind what `other` had written and the
consumer has not yet released. Nothing but the terminal barrier of `close` (when
`self` was open) was posted on the buffer of `self`, and when `self` was open its
buffer is empty on return. In every reachable state the assignment does return
under a suitable schedule of the consumer. -/
theorem assign_posts_on_other (self other : SrcId) (w : World)
    (hne : self ≠ other) (hother : (w.srcs other).open_ = true) :
    (∀ sched w', source.operator_assign sched self other w = some w' →
      w'.posted = w.posted ++
        (if (w.srcs self).open_ = true then [(self, Command.barrier true)] else []) ++
        [(other, Command.add_source self)] ∧
      postedOn other w' = postedOn other w ++ [Command.add_source self] ∧
      postedOn self w' = postedOn self w ++
        (if (w.srcs self).open_ = true then [Command.barrier true] else []) ∧
      (∃ rest, rest <:+ (w.srcs other).buf ∧
        (w'.srcs other).buf = rest ++ [Command.add_source self]) ∧
      ((w.srcs self).open_ = false →
        (w'.srcs other).buf = (w.srcs other).buf ++ [Command.add_source self]) ∧
      ((w.srcs self).open_ = true → (w'.srcs self).buf = [])) ∧
    (Reachable w → ∃ sched w', source.operator_assign sched self other w = some w') := by
  refine ⟨?_, fun hr => assign_returns_reach self other hr⟩
  intro sched w' h
  obtain ⟨w1, hclose, hw'⟩ := assign_unfold hne h
  obtain ⟨_, h2, _, h4, h5, h6, h7⟩ := close_frame hclose
  have hos : other ≠ self := fun h => hne h.symm
  have ho1 : (w1.srcs other).open_ = true := by rw [h2 other hos]; exact hother
  rw [if_pos ho1] at hw'
  have hposted : w'.posted = w1.posted ++ [(other, Command.add_source self)] := by
    rw [hw']; rfl
  have hbo : (w'.srcs other).buf = (w1.srcs other).buf ++ [Command.add_source self] := by
    rw [hw']; simp [World.setSrc, post, hos]
  have hbs : (w'.srcs self).buf = (w1.srcs self).buf := by
    rw [hw']; simp [World.setSrc]
  have hp : w'.posted = w.posted ++
      (if (w.srcs self).open_ = true then [(self, Command.barrier true)] else []) ++
      [(other, Command.add_source self)] := by rw [hposted, h4]
  refine ⟨hp, ?_, ?_, ⟨_, h5 other hos, hbo⟩, ?_, ?_⟩
  · unfold postedOn
    rw [hp]
    by_cases ho : (w.srcs self).open_ = true <;> simp [ho, hne]
  · unfold postedOn
    rw [hp]
    by_cases ho : (w.srcs self).open_ = true <;> simp [ho, hos]
  · intro hc
    rw [hbo, h7 hc]
  · intro ho
    rw [hbs]; exact (h6 ho).1

theorem assign_posts_on_other_witness :
    (1 : SrcId) ≠ 0 ∧ (twoSources.srcs 0).open_ = true ∧
    ∃ w', source.operator_assign [1] 1 0 twoSources = some w' ∧
      postedOn 0 w' = [Command.record 7, Command.add_source 1] ∧
      postedOn 1 w' = [Command.barrier true] ∧
      (w'.srcs 0).buf = [Command.record 7, Command.add_source 1] ∧
      (w'.srcs 1).buf = [] :=
  ⟨by decide, rfl, _, rfl,
    ((assign_posts_on_other 1 0 twoSources (by decide) rfl).1 [1] _ rfl).2.1,
    ((assign_posts_on_other 1 0 twoSources (by decide) rfl).1 [1] _ rfl).2.2.1,
    rfl,
    ((assign_posts_on_other 1 0 twoSources (by decide) rfl).1 [1] _ rfl).2.2.2.2.2 rfl⟩

/-- C3. For every open source `s` and every string `name` (the empty string
included), from a state satisfying the invariant of reachable states: every
call of `set_name(name)` that returns posted a rename command followed by a
non-destroying barrier on the buffer of `s`; on return the consumer has executed
everything that was queued on `s`, then the rename, then the barrier, the
consumer-side name slot of `s` equals `name`, and `s` is still open and
registered once. In every reachable state the call does return under a suitable
schedule of the consumer. -/
theorem set_name_applies (s : SrcId) (name : String) (w : World) (hinv : Inv w)
    (hopen : (w.srcs s).open_ = true) :
    (∀ sched w', source.set_name sched s name w = some w' →
      w'.posted = w.posted ++ [(s, Command.rename name), (s, Command.barrier false)] ∧
      nameOf s w'.c.sinks = some name ∧
      executedBy s w' = executedBy s w ++ (w.srcs s).buf ++
        [Command.rename name, Command.barrier false] ∧
      (w'.srcs s).buf = [] ∧ w'.notified = true ∧
      source.is_open s w' = true ∧ regCount w' s = 1) ∧
    (Reachable w → ∃ sched w', source.set_name sched s name w = some w') := by
  refine ⟨?_, fun hr => set_name_returns_reach s name hr hopen⟩
  intro sched w' h
  obtain ⟨hinv', hnot, hex, hbuf, hname⟩ := set_name_spec hinv hopen h
  refine ⟨?_, hname, hex, hbuf, hnot, ?_, regCount_eq_one hinv' (nameOf_mem hname)⟩
  · rw [wait_posted sched _ w' h]
    simp [post]
  · unfold source.is_open
    rw [wait_open sched s _ w' h, post_open]
    have : ({ post s (Command.rename name) w with locked := false, notified := false } :
        World).srcs s = (post s (Command.rename name) w).srcs s := rfl
    rw [this, post_open]; exact hopen

theorem set_name_applies_witness :
    Inv oneSourceBusy ∧ (oneSourceBusy.srcs 0).open_ = true ∧
    ∃ w', source.set_name [0, 0, 0] 0 "" oneSourceBusy = some w' ∧
      nameOf 0 w'.c.sinks = some "" ∧
      executedBy 0 w' = [Command.record 7, Command.rename "", Command.barrier false] ∧
      source.is_open 0 w' = true :=
  ⟨oneSourceBusy_Inv, rfl, _, rfl,
    ((set_name_applies 0 "" oneSourceBusy oneSourceBusy_Inv rfl).1 [0, 0, 0] _ rfl).2.1,
    ((set_name_applies 0 "" oneSourceBusy oneSourceBusy_Inv rfl).1 [0, 0, 0] _ rfl).2.2.1,
    ((set_name_applies 0 "" oneSourceBusy oneSourceBusy_Inv rfl).1 [0, 0, 0] _
      rfl).2.2.2.2.2.1⟩

/-- C4. For every open source `s` and every finite sequence `post(r1) ... post(rN)`
followed by `sync()`, from a state satisfying the invariant of reachable states
and with the consumer free to run in the background between the calls: the
barrier is posted behind `rN`, and whenever `sync` returns the consumer has
executed, from the queue of `s` and in this order, what was queued before, then
`r1 .. rN` each exactly once, then the barrier that set `notified`; the buffer
is drained. This includes `N = 0`. In every reachable state the call does return
under a suitable schedule of the consumer. -/
theorem sync_after_posts (s : SrcId) (items : List (Nat × List SrcId)) (w : World)
    (hinv : Inv w) (hopen : (w.srcs s).open_ = true) :
    (∀ sched w', source.sync sched s false (postAll s items w) = some w' →
      w'.posted = w.posted ++ items.map (fun i => (s, Command.record i.1)) ++
        [(s, Command.barrier false)] ∧
      executedBy s w' = executedBy s w ++ (w.srcs s).buf ++
        items.map (fun i => Command.record i.1) ++ [Command.barrier false] ∧
      w'.notified = true ∧ (w'.srcs s).buf = []) ∧
    (Reachable w →
      ∃ sched w', source.sync sched s false (postAll s items w) = some w') := by
  obtain ⟨h1, h2, h3, h4, h5⟩ := postAll_facts s items w hinv hopen
  refine ⟨?_, ?_⟩
  · intro sched w' h
    obtain ⟨_, hnot, hex, hbuf, _⟩ := sync_spec h1 h2 h
    refine ⟨?_, ?_, hnot, hbuf⟩
    · rw [wait_posted sched _ w' h]
      simp [post, h3]
    · rw [hex, h4]
  · intro hr
    exact sync_returns_reach s false (reachable_postAll s items w hr hopen) h2

theorem sync_after_posts_witness :
    Inv oneSource ∧ (oneSource.srcs 0).open_ = true ∧
    (∃ w', source.sync [0, 0, 0] 0 false
        (postAll 0 [(1, []), (2, [0]), (3, [])] oneSource) = some w' ∧
      executedBy 0 w' = [Command.record 1, Command.record 2, Command.record 3,
        Command.barrier false] ∧ w'.notified = true) ∧
    (∃ w', source.sync [0] 0 false (postAll 0 [] oneSource) = some w' ∧
      executedBy 0 w' = [Command.barrier false] ∧ w'.notified = true) :=
  ⟨oneSource_Inv, rfl,
    ⟨_, rfl,
      ((sync_after_posts 0 [(1, []), (2, [0]), (3, [])] oneSource oneSource_Inv rfl).1
        [0, 0, 0] _ rfl).2.1,
      ((sync_after_posts 0 [(1, []), (2, [0]), (3, [])] oneSource oneSource_Inv rfl).1
        [0, 0, 0] _ rfl).2.2.1⟩,
    ⟨_, rfl,
      ((sync_after_posts 0 [] oneSource oneSource_Inv rfl).1 [0] _ rfl).2.1,
      ((sync_after_posts 0 [] oneSource oneSource_Inv rfl).1 [0] _ rfl).2.2.1⟩⟩

/-- C5. Let `s` be open and registered with consumer-side name `n`, and `t` a source
distinct from `s`, in a state satisfying the invariant of reachable states.
Whenever `t = s`, then `s.sync()`, then `t.sync()` have returned, with the
consumer free to run in the background between the calls, the consumer holds
exactly one registration for `s` and exactly one for `t`, and both carry the
name `n` that `s` had at the time of the copy. In every reachable state the
three calls do return under suitable schedules of the consumer. -/
theorem copy_then_syncs_registers_both (s t : SrcId) (n : String) (w : World)
    (hinv : Inv w) (hopen : (w.srcs s).open_ = true)
    (hname : nameOf s w.c.sinks = some n) (hne : t ≠ s) :
    (∀ sch1 bg1 sch2 bg2 sch3 w1 w2 w3, source.operator_assign sch1 t s w = some w1 →
      source.sync sch2 s false (consumerRun bg1 w1) = some w2 →
      source.sync sch3 t false (consumerRun bg2 w2) = some w3 →
      regCount w3 s = 1 ∧ regCount w3 t = 1 ∧
      nameOf s w3.c.sinks = some n ∧ nameOf t w3.c.sinks = some n ∧
      source.is_open s w3 = true ∧ source.is_open t w3 = true) ∧
    (Reachable w →
      ∀ bg1 bg2, ∃ sch1 sch2 sch3 w1 w2 w3,
        source.operator_assign sch1 t s w = some w1 ∧
        source.sync sch2 s false (consumerRun bg1 w1) = some w2 ∧
        source.sync sch3 t false (consumerRun bg2 w2) = some w3) := by
  have step1 : ∀ sch1 bg1 w1, source.operator_assign sch1 t s w = some w1 →
      Inv (consumerRun bg1 w1) ∧ nameOf s (consumerRun bg1 w1).c.sinks = some n ∧
      ((Command.add_source t ∈ ((consumerRun bg1 w1).srcs s).buf ∧
          t ∉ (consumerRun bg1 w1).c.sinks.map Prod.fst) ∨
        nameOf t (consumerRun bg1 w1).c.sinks = some n) := by
    intro sch1 bg1 w1 h1
    obtain ⟨hinv1, hnm, hadd⟩ := assign_spec hne hinv h1
    have hn1 := hnm s n (fun h => hne h.symm) hname
    have := run_track
      (fun v => nameOf s v.c.sinks = some n ∧
        ((Command.add_source t ∈ (v.srcs s).buf ∧ t ∉ v.c.sinks.map Prod.fst) ∨
          nameOf t v.c.sinks = some n))
      (fun m v hv hp =>
        have heff := consumerStep_effect m v hv.sinv.destroy_clear
        ⟨name_stable_effect heff (fun c hc => Or.inl (hv.quiet s c hc)) hp.1,
          AddState_effect heff hv.sinv (fun c hc => hv.quiet t c hc) hp.1 hp.2⟩)
      bg1 w1 hinv1 ⟨hn1, Or.inl ⟨(hadd hopen).2.2, (hadd hopen).2.1⟩⟩
    exact ⟨this.1, this.2.1, this.2.2⟩
  have step2 : ∀ sch2 bg2 v1 w2, Inv v1 → nameOf s v1.c.sinks = some n →
      ((Command.add_source t ∈ (v1.srcs s).buf ∧ t ∉ v1.c.sinks.map Prod.fst) ∨
        nameOf t v1.c.sinks = some n) →
      source.sync sch2 s false v1 = some w2 →
      Inv (consumerRun bg2 w2) ∧ nameOf s (consumerRun bg2 w2).c.sinks = some n ∧
      nameOf t (consumerRun bg2 w2).c.sinks = some n := by
    intro sch2 bg2 v1 w2 hinv1 hn1 hq h2
    have ho1 := hinv1.sinv.reg_open s (nameOf_mem hn1)
    obtain ⟨hinv2, _, _, _, hnames⟩ := sync_spec hinv1 ho1 h2
    have ht2 : nameOf t w2.c.sinks = some n := by
      rcases hq with ⟨hadd, _⟩ | hq
      · exact sync_registers hne hinv1 ho1 hn1 hadd h2
      · exact hnames t n hq
    have := run_track
      (fun v => nameOf s v.c.sinks = some n ∧ nameOf t v.c.sinks = some n)
      (fun m v hv hp =>
        have heff := consumerStep_effect m v hv.sinv.destroy_clear
        ⟨name_stable_effect heff (fun c hc => Or.inl (hv.quiet s c hc)) hp.1,
          name_stable_effect heff (fun c hc => Or.inl (hv.quiet t c hc)) hp.2⟩)
      bg2 w2 hinv2 ⟨hnames s n hn1, ht2⟩
    exact ⟨this.1, this.2.1, this.2.2⟩
  constructor
  · intro sch1 bg1 sch2 bg2 sch3 w1 w2 w3 h1 h2 h3
    obtain ⟨hinv1, hn1, hq⟩ := step1 sch1 bg1 w1 h1
    obtain ⟨hinv2, hs2, ht2⟩ := step2 sch2 bg2 _ w2 hinv1 hn1 hq h2
    have hot2 := hinv2.sinv.reg_open t (nameOf_mem ht2)
    obtain ⟨hinv3, _, _, _, hnames⟩ := sync_spec hinv2 hot2 h3
    have hs3 := hnames s n hs2
    have ht3 := hnames t n ht2
    exact ⟨regCount_eq_one hinv3 (nameOf_mem hs3), regCount_eq_one hinv3 (nameOf_mem ht3),
      hs3, ht3, hinv3.sinv.reg_open s (nameOf_mem hs3),
      hinv3.sinv.reg_open t (nameOf_mem ht3)⟩
  · intro hr bg1 bg2
    obtain ⟨sch1, w1, h1⟩ := assign_returns_reach t s hr
    have hr1 : Reachable (consumerRun bg1 w1) :=
      reachable_run bg1 (Reachable.step hr (Step.assign w w1 sch1 t s h1))
    obtain ⟨hinv1, hn1, hq⟩ := step1 sch1 bg1 w1 h1
    have ho1 := hinv1.sinv.reg_open s (nameOf_mem hn1)
    obtain ⟨sch2, w2, h2⟩ := sync_returns_reach s false hr1 ho1
    have hr2 : Reachable (consumerRun bg2 w2) :=
      reachable_run bg2 (Reachable.step hr1 (Step.sync _ w2 sch2 s ho1 h2))
    obtain ⟨hinv2, _, ht2⟩ := step2 sch2 bg2 _ w2 hinv1 hn1 hq h2
    have ho2 := hinv2.sinv.reg_open t (nameOf_mem ht2)
    obtain ⟨sch3, w3, h3⟩ := sync_returns_reach t false hr2 ho2
    exact ⟨sch1, sch2, sch3, w1, w2, w3, h1, h2, h3⟩

theorem copy_then_syncs_registers_both_witness :
    Inv twoSources ∧ (twoSources.srcs 0).open_ = true ∧
    nameOf 0 twoSources.c.sinks = some "a" ∧ (1 : SrcId) ≠ 0 ∧
    ∃ w1 w2 w3, source.operator_assign [1] 1 0 twoSources = some w1 ∧
      source.sync [0, 0] 0 false (consumerRun [0] w1) = some w2 ∧
      source.sync [1] 1 false (consumerRun [] w2) = some w3 ∧
      regCount w3 0 = 1 ∧ regCount w3 1 = 1 ∧
      nameOf 0 w3.c.sinks = some "a" ∧ nameOf 1 w3.c.sinks = some "a" :=
  ⟨twoSources_Inv, rfl, rfl, by decide, _, _, _, rfl, rfl, rfl,
    ((copy_then_syncs_registers_both 0 1 "a" twoSources twoSources_Inv rfl rfl
      (by decide)).1 [1] [0] [0, 0] [] [1] _ _ _ rfl rfl rfl).1,
    ((copy_then_syncs_registers_both 0 1 "a" twoSources twoSources_Inv rfl rfl
      (by decide)).1 [1] [0] [0, 0] [] [1] _ _ _ rfl rfl rfl).2.1,
    ((copy_then_syncs_registers_both 0 1 "a" twoSources twoSources_Inv rfl rfl
      (by decide)).1 [1] [0] [0, 0] [] [1] _ _ _ rfl rfl rfl).2.2.1,
    ((copy_then_syncs_registers_both 0 1 "a" twoSources twoSources_Inv rfl rfl
      (by decide)).1 [1] [0] [0, 0] [] [1] _ _ _ rfl rfl rfl).2.2.2.1⟩

/-- C6, as stated, fails: after constructing source 0 and copy-constructing source 1
from it, a reachable state, `is_open()` of source 1 is true while the consumer
holds no registration referring to source 1. -/
theorem open_iff_registered_counterexample :
    source.copy_construct [] 1 0 (source.construct 0 "a" World.init) = some copiedSource ∧
    Reachable copiedSource ∧ source.is_open 1 copiedSource = true ∧
    ¬ registered copiedSource 1 ∧ regCount copiedSource 1 = 0 ∧
    ¬ (∀ w, Reachable w → ∀ s, source.is_open s w = true ↔ registered w s) := by
  have h1 : source.is_open 1 copiedSource = true := rfl
  have h2 : ¬ registered copiedSource 1 := by decide
  exact ⟨rfl, copiedSource_reachable, h1, h2, rfl,
    fun h => h2 ((h copiedSource copiedSource_reachable 1).1 h1)⟩

/-- C6, amended. In every state reachable through construct, copy-construct,
copy-assign, post, sync(), set_name, close and consumer steps, and for every
source `s`: there is at most one registration referring to `s`; a registration
exists only if `s.is_open()`; and if `s.is_open()` then either exactly one
registration exists and no re-registration of `s` is pending, or none exists yet
and exactly one re-registration command `add_source(s)` is pending, in the buffer
of exactly one source. A closed source has no registration, no pending
re-registration and an empty buffer. -/
theorem open_registered_or_pending (w : World) (hr : Reachable w) (s : SrcId) :
    regCount w s ≤ 1 ∧
    (registered w s → source.is_open s w = true) ∧
    (source.is_open s w = true →
      (regCount w s = 1 ∧ ∀ o, Command.add_source s ∉ (w.srcs o).buf) ∨
      (regCount w s = 0 ∧ ∃ o, (w.srcs o).buf.count (Command.add_source s) = 1 ∧
        ∀ o', Command.add_source s ∈ (w.srcs o').buf → o' = o)) ∧
    (source.is_open s w = false →
      regCount w s = 0 ∧ (∀ o, Command.add_source s ∉ (w.srcs o).buf) ∧
      (w.srcs s).buf = []) := by
  have hinv := reachable_Inv hr
  refine ⟨List.nodup_iff_count_le_one.1 hinv.sinv.nodup s, hinv.sinv.reg_open s, ?_, ?_⟩
  · intro ho
    rcases hinv.open_cases ho with h | ⟨o, h⟩
    · exact Or.inl ⟨regCount_eq_one hinv h,
        fun o ho' => (hinv.sinv.add_fresh o s ho').2 h⟩
    · refine Or.inr ⟨regCount_eq_zero (hinv.sinv.add_fresh o s h).2, o, ?_,
        fun o' ho' => hinv.sinv.add_unique o' o s ho' h⟩
      have h1 := hinv.sinv.add_once o s
      have h2 : 1 ≤ (w.srcs o).buf.count (Command.add_source s) := List.one_le_count_iff.2 h
      omega
  · intro hc
    obtain ⟨h1, h2, h3⟩ := hinv.sinv.closed_facts hc
    exact ⟨regCount_eq_zero h1, h2, h3⟩

theorem open_registered_or_pending_witness :
    Reachable copiedSource ∧
    (regCount copiedSource 1 ≤ 1 ∧
    (registered copiedSource 1 → source.is_open 1 copiedSource = true) ∧
    (source.is_open 1 copiedSource = true →
      (regCount copiedSource 1 = 1 ∧
        ∀ o, Command.add_source 1 ∉ (copiedSource.srcs o).buf) ∨
      (regCount copiedSource 1 = 0 ∧
        ∃ o, (copiedSource.srcs o).buf.count (Command.add_source 1) = 1 ∧
        ∀ o', Command.add_source 1 ∈ (copiedSource.srcs o').buf → o' = o)) ∧
    (source.is_open 1 copiedSource = false →
      regCount copiedSource 1 = 0 ∧
      (∀ o, Command.add_source 1 ∉ (copiedSource.srcs o).buf) ∧
      (copiedSource.srcs 1).buf = [])) ∧
    (copiedSource.srcs 0).buf = [Command.add_source 1] :=
  ⟨copiedSource_reachable, open_registered_or_pending copiedSource copiedSource_reachable 1,
    rfl⟩

/-- C7. For distinct sources `self` and `other`, whatever the prior state of `self`:
after `self = other` returns, and likewise after copy construction of `self`
from `other`, `self.is_open() == other.is_open()` and the level of `self` equals
the level of `other`; the open flag and the level of `other` are unchanged.
Copy construction always returns, and in every reachable state the assignment
returns under a suitable schedule of the consumer. -/
theorem assign_copies_open_and_level (self other : SrcId) (w : World)
    (hne : self ≠ other) :
    (∀ sched w', source.operator_assign sched self other w = some w' →
      source.is_open self w' = source.is_open other w' ∧
      (w'.srcs self).level = (w'.srcs other).level ∧
      source.is_open other w' = source.is_open other w ∧
      (w'.srcs other).level = (w.srcs other).level) ∧
    (∀ sched w', source.copy_construct sched self other w = some w' →
      source.is_open self w' = source.is_open other w' ∧
      (w'.srcs self).level = (w'.srcs other).level ∧
      source.is_open other w' = source.is_open other w ∧
      (w'.srcs other).level = (w.srcs other).level) ∧
    (Reachable w → ∃ sched w', source.operator_assign sched self other w = some w') ∧
    (∀ sched, ∃ w', source.copy_construct sched self other w = some w') := by
  have hos : other ≠ self := fun h => hne h.symm
  have key : ∀ (sched : List SrcId) (v w' : World),
      source.operator_assign sched self other v = some w' →
      source.is_open self w' = source.is_open other w' ∧
      (w'.srcs self).level = (w'.srcs other).level ∧
      source.is_open other w' = source.is_open other v ∧
      (w'.srcs other).level = (v.srcs other).level := by
    intro sched v w' h
    obtain ⟨w1, hclose, hw'⟩ := assign_unfold hne h
    obtain ⟨h1, h2, h3, _, _, _, _⟩ := close_frame hclose
    unfold source.is_open
    by_cases ho : (w1.srcs other).open_ = true
    · rw [if_pos ho] at hw'
      have e1 : (w'.srcs self).open_ = true := by rw [hw']; simp [World.setSrc]
      have e2 : (w'.srcs other).open_ = (w1.srcs other).open_ := by
        rw [hw']; simp [World.setSrc, post, hos]
      have e3 : (w'.srcs self).level = (w1.srcs other).level := by
        rw [hw']; simp [World.setSrc]
      have e4 : (w'.srcs other).level = (w1.srcs other).level := by
        rw [hw']; simp [World.setSrc, post, hos]
      refine ⟨by rw [e1, e2, ho], by rw [e3, e4], by rw [e2, h2 other hos],
        by rw [e4, h3 other]⟩
    · rw [if_neg ho] at hw'
      have e1 : (w'.srcs self).open_ = (w1.srcs self).open_ := by
        rw [hw']; simp [World.setSrc]
      have e2 : (w'.srcs other).open_ = (w1.srcs other).open_ := by
        rw [hw']; simp [World.setSrc, hos]
      have e3 : (w'.srcs self).level = (w1.srcs other).level := by
        rw [hw']; simp [World.setSrc]
      have e4 : (w'.srcs other).level = (w1.srcs other).level := by
        rw [hw']; simp [World.setSrc, hos]
      have ho' : (w1.srcs other).open_ = false := by simpa using ho
      refine ⟨by rw [e1, e2, h1, ho'], by rw [e3, e4], by rw [e2, h2 other hos],
        by rw [e4, h3 other]⟩
  refine ⟨fun sched w' h => key sched w w' h, ?_,
    fun hr => assign_returns_reach self other hr, ?_⟩
  · intro sched w' h
    have := key sched (w.setSrc self Source.fresh) w' h
    have hsame : (w.setSrc self Source.fresh).srcs other = w.srcs other := by
      simp [World.setSrc, hos]
    unfold source.is_open at this ⊢
    rw [hsame] at this
    exact this
  · intro sched
    have hcl : source.close sched self (w.setSrc self Source.fresh)
        = some (w.setSrc self Source.fresh) :=
      close_of_closed sched self _ (by simp [World.setSrc, Source.fresh])
    unfold source.copy_construct source.operator_assign
    rw [if_neg hne, hcl]
    dsimp only
    split
    · exact ⟨_, rfl⟩
    · exact ⟨_, rfl⟩

theorem assign_copies_open_and_level_witness :
    (1 : SrcId) ≠ 0 ∧
    ∃ w', source.operator_assign [1] 1 0 twoLevels = some w' ∧
      (source.is_open 1 w' = source.is_open 0 w' ∧
      (w'.srcs 1).level = (w'.srcs 0).level ∧
      source.is_open 0 w' = source.is_open 0 twoLevels ∧
      (w'.srcs 0).level = (twoLevels.srcs 0).level) ∧
      (twoLevels.srcs 1).level = 0 ∧ (w'.srcs 1).level = 5 :=
  ⟨by decide, _, rfl,
    (assign_copies_open_and_level 1 0 twoLevels (by decide)).1 [1] _ rfl, rfl, rfl⟩

/-- C8. `close()` is idempotent: on a source with `open_ == false`, `close()` and the
destructor return at once under every schedule, the empty one included (no wait
on the consumer), and leave the whole state unchanged: open flag, level, buffer
and the log of posted commands. Hence, for every source, `close()` after a
`close()` that returned changes nothing. -/
theorem close_idempotent (sched sched' : List SrcId) (s : SrcId) (w : World) :
    ((w.srcs s).open_ = false →
      source.close sched s w = some w ∧ source.destruct sched s w = some w ∧
      source.close [] s w = some w) ∧
    (∀ w', source.close sched s w = some w' →
      source.close sched' s w' = some w' ∧ source.destruct sched' s w' = some w') := by
  refine ⟨fun hc => ⟨close_of_closed sched s w hc, close_of_closed sched s w hc,
    close_of_closed [] s w hc⟩, ?_⟩
  intro w' h
  have hc := (close_frame h).1
  exact ⟨close_of_closed sched' s w' hc, close_of_closed sched' s w' hc⟩

theorem close_idempotent_witness :
    ((World.init.srcs 0).open_ = false ∧ source.close [0] 0 World.init = some World.init) ∧
    ∃ w', source.close [0, 0] 0 oneSourceBusy = some w' ∧
      source.close [] 0 w' = some w' :=
  ⟨⟨rfl, ((close_idempotent [0] [] 0 World.init).1 rfl).1⟩,
    _, rfl, ((close_idempotent [0, 0] [] 0 oneSourceBusy).2 _ rfl).1⟩

/-- C9. Self-assignment is a no-op: for every source `s`, open or closed, `s = s`
returns at once with the whole state unchanged, so `open_`, `level_` and the
buffer of `s` are as before and nothing was posted (no terminal barrier, no
re-registration). -/
theorem self_assign_noop (sched : List SrcId) (s : SrcId) (w : World) :
    source.operator_assign sched s s w = some w := by
  simp [source.operator_assign]

/-- C10. For every value of `destroy`, executing the command posted by
`sync(destroy)` on the consumer performs exactly this sequence of actions: set
the consumer's destroy flag to `destroy`, `flush()`, `sync()`, acquire the
mutex, set `notified = true`, `notify_one` with the mutex held, release the
mutex. The notify is the last access to the condition variable or to
`notified`: what follows it is only the release of the mutex and touches neither
the consumer nor `cv` nor `notified`. The closure leaves the registrations and
the name slot alone. -/
theorem sync_lambda_actions (destroy : Bool) (x : Frame) :
    (exec (Command.barrier destroy) x).trace = x.trace ++
      [Event.set_destroy destroy, Event.flush, Event.sync, Event.lock,
        Event.set_notified, Event.notify true, Event.unlock] ∧
    (∀ pre post b, (exec (Command.barrier destroy) x).trace
        = x.trace ++ pre ++ Event.notify b :: post →
      pre = [Event.set_destroy destroy, Event.flush, Event.sync, Event.lock,
          Event.set_notified] ∧
        b = true ∧ post = [Event.unlock] ∧ ∀ e ∈ post, e.target = Target.mutex) ∧
    (exec (Command.barrier destroy) x).c.destroy = destroy ∧
    (exec (Command.barrier destroy) x).notified = true ∧
    (exec (Command.barrier destroy) x).locked = false ∧
    (exec (Command.barrier destroy) x).c.sinks = x.c.sinks ∧
    (exec (Command.barrier destroy) x).name = x.name := by
  have htrace : (exec (Command.barrier destroy) x).trace = x.trace ++
      [Event.set_destroy destroy, Event.flush, Event.sync, Event.lock,
        Event.set_notified, Event.notify true, Event.unlock] := by
    simp [exec, sync_lambda, Frame.set_destroy, Frame.flush, Frame.sync, Frame.lock,
      Frame.set_notified, Frame.notify_one, Frame.unlock]
  refine ⟨htrace, ?_, rfl, rfl, rfl, rfl, rfl⟩
  intro pre post b h
  rw [htrace, List.append_assoc] at h
  have h' := List.append_cancel_left h
  rcases pre with _ | ⟨a1, _ | ⟨a2, _ | ⟨a3, _ | ⟨a4, _ | ⟨a5, _ | ⟨a6, _ | ⟨a7, pre⟩⟩⟩⟩⟩⟩⟩ <;>
    simp at h'
  obtain ⟨h1, h2, h3, h4, h5, hb, hpost⟩ := h'
  subst h1 h2 h3 h4 h5 hb hpost
  refine ⟨rfl, rfl, rfl, ?_⟩
  intro e he
  simp only [List.mem_singleton] at he
  subst he
  rfl

theorem sync_lambda_actions_witness :
    (exec (Command.barrier true) ⟨⟨false, [(0, "a")]⟩, "a", false, false, []⟩).trace
      = [Event.set_destroy true, Event.flush, Event.sync, Event.lock,
          Event.set_notified, Event.notify true, Event.unlock] ∧
    ∀ e ∈ [Event.unlock], e.target = Target.mutex :=
  ⟨(sync_lambda_actions true ⟨⟨false, [(0, "a")]⟩, "a", false, false, []⟩).1,
    ((sync_lambda_actions true ⟨⟨false, [(0, "a")]⟩, "a", false, false, []⟩).2.1
      [Event.set_destroy true, Event.flush, Event.sync, Event.lock, Event.set_notified]
      [Event.unlock] true rfl).2.2.2⟩

end xtr
